import Mathlib

/-!
Verification of the `cute` KIF-processing core (Go) against its
natural-language specification.

The Go sources are shallowly embedded:

* Go strings are modeled as `List Char` (`Str`).  All substring operations
  the code performs are either on whole runes or on ASCII bytes; on valid
  UTF-8 the byte-level and rune-level views of those operations coincide,
  so the rune-level model is faithful.
* Go maps holding hand-piece counts are modeled by a structure with one
  `Nat` field per key that the program ever writes (the seven droppable
  piece letters plus `K`, which a capture can insert).  Reads of absent
  keys return 0, as in Go.
* In-place mutation (`Position.ApplyMove` and helpers) is modeled by
  explicit state passing: a function returns the error (if any) together
  with the state as mutated up to the point of the early return.
* The 256-bit packing's `bitWriter256`/`bitReader256` index a `[4]uint64`
  array by bit position; writer and reader use the identical
  position-to-word-and-offset mapping, so the bit stream is modeled
  directly as the list of bits in position order, with the 256-bit bound
  checks of the Go code retained.
-/

set_option maxHeartbeats 2000000
set_option maxRecDepth 8000

namespace Cute

abbrev Str := List Char

def strOf (s : String) : Str := s.data

instance {ε α : Type} [DecidableEq ε] [DecidableEq α] : DecidableEq (Except ε α) := fun a b =>
  match a, b with
  | .ok x, .ok y =>
      if h : x = y then .isTrue (congrArg Except.ok h)
      else .isFalse (fun hh => h (Except.ok.inj hh))
  | .error x, .error y =>
      if h : x = y then .isTrue (congrArg Except.error h)
      else .isFalse (fun hh => h (Except.error.inj hh))
  | .ok _, .error _ => .isFalse (fun hh => Except.noConfusion hh)
  | .error _, .ok _ => .isFalse (fun hh => Except.noConfusion hh)

/-- Go `strings.HasPrefix s pre`. -/
def startsWithSub : Str → Str → Bool
  | _, [] => true
  | [], _ :: _ => false
  | c :: cs, p :: ps => c == p && startsWithSub cs ps

/-- Go `strings.HasSuffix s suf`. -/
def endsWithSub (s suf : Str) : Bool := startsWithSub s.reverse suf.reverse

/-- Go `strings.Contains s pat`. -/
def containsSub : Str → Str → Bool
  | [], pat => pat.isEmpty
  | c :: rest, pat => startsWithSub (c :: rest) pat || containsSub rest pat

/-- Go `strings.Replace s pat "" 1`: remove the first occurrence of `pat`. -/
def replaceFirstEmpty : Str → Str → Str
  | [], _ => []
  | c :: rest, pat =>
      if startsWithSub (c :: rest) pat then (c :: rest).drop pat.length
      else c :: replaceFirstEmpty rest pat

/-- White space characters the Go code can meet here: `strings.TrimSpace`
trims Unicode white space; the subset modeled covers ASCII blanks and the
ideographic space U+3000. -/
def isSpaceChar (c : Char) : Bool :=
  c == ' ' || c == '\t' || c == '\n' || c == '\r' || c == '　'

/-- Go `strings.TrimSpace`. -/
def goTrim (s : Str) : Str :=
  ((s.dropWhile isSpaceChar).reverse.dropWhile isSpaceChar).reverse

/-- Go `fromSquareRe.FindStringSubmatch`: the two digits of the leftmost
occurrence of the pattern `\((\d)(\d)\)`. -/
def findFromSquareChars : Str → Option (Char × Char)
  | [] => none
  | '(' :: d1 :: d2 :: ')' :: rest2 =>
      if d1.isDigit && d2.isDigit then some (d1, d2)
      else findFromSquareChars (d1 :: d2 :: ')' :: rest2)
  | _ :: rest => findFromSquareChars rest

/-- Go `fromSquareRe.ReplaceAllString work ""`: remove every occurrence of
the pattern `\((\d)(\d)\)`. -/
def removeFromSquares : Str → Str
  | [] => []
  | '(' :: d1 :: d2 :: ')' :: rest2 =>
      if d1.isDigit && d2.isDigit then removeFromSquares rest2
      else '(' :: removeFromSquares (d1 :: d2 :: ')' :: rest2)
  | c :: rest => c :: removeFromSquares rest

structure Square where
  file : Nat
  rank : Nat
deriving DecidableEq

/-- Go `parseFromSquare`: regex match plus the 1..9 range checks. -/
def parseFromSquare (text : Str) : Option (Nat × Nat) :=
  match findFromSquareChars text with
  | none => none
  | some (d1, d2) =>
      let file := d1.toNat - '0'.toNat
      let rank := d2.toNat - '0'.toNat
      if 1 ≤ file ∧ file ≤ 9 ∧ 1 ≤ rank ∧ rank ≤ 9 then some (file, rank)
      else none

def parseFileRune (r : Char) : Option Nat :=
  if '1' ≤ r ∧ r ≤ '9' then some (r.toNat - '0'.toNat)
  else if '１' ≤ r ∧ r ≤ '９' then some (r.toNat - '１'.toNat + 1)
  else none

def parseRankRune (r : Char) : Option Nat :=
  if r = '一' then some 1
  else if r = '二' then some 2
  else if r = '三' then some 3
  else if r = '四' then some 4
  else if r = '五' then some 5
  else if r = '六' then some 6
  else if r = '七' then some 7
  else if r = '八' then some 8
  else if r = '九' then some 9
  else none

def rankToLetter (rank : Nat) : Char := Char.ofNat ('a'.toNat + rank - 1)

/-- Go `formatSquare`: `fmt.Sprintf("%d%c", file, 'a'+rank-1)`. -/
def formatSquare (s : Square) : Str := (toString s.file).data ++ [rankToLetter s.rank]

structure PieceDef where
  name : Str
  letter : Str
  promoted : Bool
  forcePromote : Bool

/-- Go `pieceDefs`, in source order (first prefix match wins, so the
compound pre-promoted glyphs come first). -/
def pieceDefs : List PieceDef :=
  [⟨strOf "成銀", strOf "S", false, true⟩,
   ⟨strOf "成桂", strOf "N", false, true⟩,
   ⟨strOf "成香", strOf "L", false, true⟩,
   ⟨strOf "成歩", strOf "P", false, true⟩,
   ⟨strOf "と", strOf "P", true, false⟩,
   ⟨strOf "馬", strOf "B", true, false⟩,
   ⟨strOf "龍", strOf "R", true, false⟩,
   ⟨strOf "竜", strOf "R", true, false⟩,
   ⟨strOf "王", strOf "K", false, false⟩,
   ⟨strOf "玉", strOf "K", false, false⟩,
   ⟨strOf "飛", strOf "R", false, false⟩,
   ⟨strOf "角", strOf "B", false, false⟩,
   ⟨strOf "金", strOf "G", false, false⟩,
   ⟨strOf "銀", strOf "S", false, false⟩,
   ⟨strOf "桂", strOf "N", false, false⟩,
   ⟨strOf "香", strOf "L", false, false⟩,
   ⟨strOf "歩", strOf "P", false, false⟩]

/-- Go `parsePiece`: first `pieceDefs` entry that is a prefix of the
trimmed text. -/
def parsePiece (text : Str) : Except String (Str × Bool × Bool) :=
  match pieceDefs.find? (fun d => startsWithSub (goTrim text) d.name) with
  | some d => .ok (d.letter, d.promoted, d.forcePromote)
  | none => .error ("unknown piece in " ++ String.mk text)

def terminalTokens : List Str :=
  [strOf "投了", strOf "中断", strOf "持将棋", strOf "千日手", strOf "詰み",
   strOf "切れ負け", strOf "反則勝ち", strOf "反則負け", strOf "入玉勝ち",
   strOf "勝ち宣言"]

/-- Go `isTerminalMove`. -/
def isTerminalMove (token : Str) : Bool := terminalTokens.contains token

/-- Stage 1 of the Go `parseKIFMoveToken` body: the work text after the
source-square pattern has been removed (when present). -/
def bodyWork1 (work0 : Str) : Str :=
  if (parseFromSquare work0).isSome then removeFromSquares work0 else work0

/-- Go `noPromote := strings.Contains(work, "不成")`. -/
def bodyNoPromote (work0 : Str) : Bool := containsSub (bodyWork1 work0) (strOf "不成")

/-- Work text after the first 不成 has been removed (when present). -/
def bodyWork2 (work0 : Str) : Str :=
  if bodyNoPromote work0 then replaceFirstEmpty (bodyWork1 work0) (strOf "不成")
  else bodyWork1 work0

/-- Go `strings.Contains(work, "成")` after the 不成 removal. -/
def bodyHasPromoteMark (work0 : Str) : Bool := containsSub (bodyWork2 work0) (strOf "成")

/-- Work text after the first 成 has been removed (when present). -/
def bodyWork3 (work0 : Str) : Str :=
  if bodyHasPromoteMark work0 then replaceFirstEmpty (bodyWork2 work0) (strOf "成")
  else bodyWork2 work0

/-- Go `drop := strings.Contains(work, "打")`. -/
def bodyIsDrop (work0 : Str) : Bool := containsSub (bodyWork3 work0) (strOf "打")

/-- Work text after the first 打 has been removed (when present). -/
def bodyWork4 (work0 : Str) : Str :=
  if bodyIsDrop work0 then replaceFirstEmpty (bodyWork3 work0) (strOf "打")
  else bodyWork3 work0

/-- Body of Go `parseKIFMoveToken` after the destination has been
extracted: source-square removal, promotion and drop markers, piece
lookup, and the final USI text. -/
def parseKIFMoveBody (work0 : Str) (dest : Square) :
    Except String (Str × Option Square × Bool) :=
  match parsePiece (bodyWork4 work0) with
  | .error e => .error e
  | .ok (letter, promotedPiece, forcePromote) =>
      let promote := (bodyHasPromoteMark work0 || forcePromote) && !(bodyNoPromote work0)
      if bodyIsDrop work0 then
        if promotedPiece then .error "cannot drop promoted piece"
        else .ok (letter ++ ('*' :: formatSquare dest), some dest, false)
      else
        match parseFromSquare work0 with
        | none => .error "missing source square"
        | some (ff, fr) =>
            let usi := formatSquare ⟨ff, fr⟩ ++ formatSquare dest
            .ok ((if promote then usi ++ strOf "+" else usi), some dest, false)

/-- Go `parseKIFMoveToken`.  Result `(usi, dest, isEnd)`.  (The Go local
`work := TrimSpace(token)` is inlined; `goTrim` is pure.) -/
def parseKIFMoveToken (token : Str) (prevDest : Option Square) :
    Except String (Str × Option Square × Bool) :=
  if isTerminalMove token then .ok ([], none, true)
  else if startsWithSub (goTrim token) (strOf "同") then
    match prevDest with
    | none => .error "same-square move without previous destination"
    | some d =>
        parseKIFMoveBody
          (goTrim (((goTrim token).drop 1).dropWhile (fun c => c == ' ' || c == '　'))) d
  else
    match goTrim token with
    | c1 :: c2 :: rest =>
        match parseFileRune c1, parseRankRune c2 with
        | some f, some r => parseKIFMoveBody (goTrim rest) ⟨f, r⟩
        | none, _ => .error ("invalid destination file in " ++ String.mk token)
        | some _, none => .error ("invalid destination rank in " ++ String.mk token)
    | _ => .error ("invalid move token: " ++ String.mk token)

/-- One raw KIF line, modeled by its match against the two line regexes of
the Go code: `clocked = true` means `moveLineRe` matched (the line carries
a clock suffix) and `text` is its captured move text; `clocked = false`
means only `terminalLineRe` matched.  Lines matching neither regex are
skipped by every Go loop and are omitted from the model. -/
structure KifLine where
  clocked : Bool
  text : Str

/-- Loop of Go `parseKIFMoves` (the `line %d:` error prefix is not
modeled; the underlying message is kept). -/
def parseKIFMovesGo : List KifLine → Option Square → Except String (List Str)
  | [], _ => .ok []
  | l :: rest, prevDest =>
      if l.clocked then
        let moveText := goTrim l.text
        if moveText = [] then parseKIFMovesGo rest prevDest
        else
          match parseKIFMoveToken moveText prevDest with
          | .error e => .error e
          | .ok (_, _, true) => .ok []
          | .ok (mv, dest, false) =>
              match parseKIFMovesGo rest dest with
              | .error e => .error e
              | .ok ms => .ok (mv :: ms)
      else parseKIFMovesGo rest prevDest

/-- Go `parseKIFMoves`. -/
def parseKIFMoves (lines : List KifLine) : Except String (List Str) :=
  parseKIFMovesGo lines none

/-- Loop of Go `findTerminalMove`: every modeled line matches one of the
two regexes, so every nonempty move text counts one ply. -/
def findTerminalMoveGo : List KifLine → Nat → Str × Nat
  | [], _ => ([], 0)
  | l :: rest, ply =>
      let moveText := goTrim l.text
      if moveText = [] then findTerminalMoveGo rest ply
      else if isTerminalMove moveText then (moveText, ply + 1)
      else findTerminalMoveGo rest (ply + 1)

/-- Go `findTerminalMove`. -/
def findTerminalMove (lines : List KifLine) : Str × Nat :=
  findTerminalMoveGo lines 0

/-- Go `winnerFromPly`. -/
def winnerFromPly (ply : Nat) : String :=
  if ply % 2 = 1 then "sente_win" else "gote_win"

/-- Go `resultFromTerminal`. -/
def resultFromTerminal (token : Str) (ply : Nat) : String × String :=
  if token = strOf "中断" then ("abort", String.mk token)
  else if token = strOf "持将棋" ∨ token = strOf "千日手" then
    ("draw", String.mk token)
  else if token = strOf "反則勝ち" ∨ token = strOf "詰み" then
    (winnerFromPly ply, String.mk token)
  else if token = strOf "投了" ∨ token = strOf "切れ負け" ∨ token = strOf "反則負け" then
    (winnerFromPly (ply + 1), String.mk token)
  else ("unknown", String.mk token)

/-- Go `parseResult`. -/
def parseResult (lines : List KifLine) : String × String :=
  let r := findTerminalMove lines
  if r.1 = [] then ("unknown", "") else resultFromTerminal r.1 r.2

/-- Go `isFoulEnd`. -/
def isFoulEnd (lines : List KifLine) : Bool :=
  let t := (findTerminalMove lines).1
  t == strOf "反則勝ち" || t == strOf "反則負け"

/-- Move-list computation of Go `BuildGameRecord` up to the evaluation
loop: parse the moves, reject empty records, and drop the final move of a
foul-ended record (the engine-evaluation and header parts perform no
further change to the move list). -/
def buildGameRecordMoves (lines : List KifLine) : Except String (List Str) :=
  match parseKIFMoves lines with
  | .error e => .error e
  | .ok moves =>
      if moves = [] then .error "no moves found"
      else
        let foul := isFoulEnd lines
        .ok (if foul ∧ moves ≠ [] then moves.dropLast else moves)

inductive Color
  | black
  | white
deriving DecidableEq

/-- Go `toggleTurn` value. -/
def Color.other : Color → Color
  | .black => .white
  | .white => .black

structure Piece where
  kind : Str
  color : Color
  promoted : Bool
deriving DecidableEq

/-- One side's hand, Go `map[string]int`: one counter per key the program
ever writes (the seven droppable letters, plus `K` which a king capture or
an SFEN hand field can insert).  Absent keys read as 0, as in Go. -/
structure Hand where
  cntP : Nat
  cntL : Nat
  cntN : Nat
  cntS : Nat
  cntG : Nat
  cntB : Nat
  cntR : Nat
  cntK : Nat
deriving DecidableEq

def Hand.empty : Hand := ⟨0, 0, 0, 0, 0, 0, 0, 0⟩

def handGet (h : Hand) (k : Str) : Nat :=
  if k = strOf "P" then h.cntP
  else if k = strOf "L" then h.cntL
  else if k = strOf "N" then h.cntN
  else if k = strOf "S" then h.cntS
  else if k = strOf "G" then h.cntG
  else if k = strOf "B" then h.cntB
  else if k = strOf "R" then h.cntR
  else if k = strOf "K" then h.cntK
  else 0

def handAdd (h : Hand) (k : Str) (n : Nat) : Hand :=
  if k = strOf "P" then { h with cntP := h.cntP + n }
  else if k = strOf "L" then { h with cntL := h.cntL + n }
  else if k = strOf "N" then { h with cntN := h.cntN + n }
  else if k = strOf "S" then { h with cntS := h.cntS + n }
  else if k = strOf "G" then { h with cntG := h.cntG + n }
  else if k = strOf "B" then { h with cntB := h.cntB + n }
  else if k = strOf "R" then { h with cntR := h.cntR + n }
  else if k = strOf "K" then { h with cntK := h.cntK + n }
  else h

/-- Go `hand[k]--` followed by delete-if-zero; in the count model the
decrement alone. -/
def handSub1 (h : Hand) (k : Str) : Hand :=
  if k = strOf "P" then { h with cntP := h.cntP - 1 }
  else if k = strOf "L" then { h with cntL := h.cntL - 1 }
  else if k = strOf "N" then { h with cntN := h.cntN - 1 }
  else if k = strOf "S" then { h with cntS := h.cntS - 1 }
  else if k = strOf "G" then { h with cntG := h.cntG - 1 }
  else if k = strOf "B" then { h with cntB := h.cntB - 1 }
  else if k = strOf "R" then { h with cntR := h.cntR - 1 }
  else if k = strOf "K" then { h with cntK := h.cntK - 1 }
  else h

/-- Go `mergeCounts`. -/
def mergeCounts (dst src : Hand) : Hand :=
  ⟨dst.cntP + src.cntP, dst.cntL + src.cntL, dst.cntN + src.cntN,
   dst.cntS + src.cntS, dst.cntG + src.cntG, dst.cntB + src.cntB,
   dst.cntR + src.cntR, dst.cntK + src.cntK⟩

/-- Go `Position`: the 9×9 grid is flattened rank-major, cell
`board[rank-1][file-1]` at index `(rank-1)*9 + (file-1)`; the Go array
always holds 81 cells. -/
structure Position where
  board : List (Option Piece)
  handB : Hand
  handW : Hand
  turn : Color
deriving DecidableEq

def Position.hand (p : Position) : Color → Hand
  | .black => p.handB
  | .white => p.handW

def setHand (p : Position) (c : Color) (h : Hand) : Position :=
  match c with
  | .black => { p with handB := h }
  | .white => { p with handW := h }

def boardGet (b : List (Option Piece)) (i : Nat) : Option Piece := b.getD i none

def setBoardIdx (pos : Position) (i : Nat) (c : Option Piece) : Position :=
  { pos with board := pos.board.set i c }

def emptyBoard : List (Option Piece) := List.replicate 81 none

/-- Go `pieceAt` with its bounds guard. -/
def pieceAt (pos : Position) (s : Square) : Option Piece :=
  if 1 ≤ s.file ∧ s.file ≤ 9 ∧ 1 ≤ s.rank ∧ s.rank ≤ 9 then
    boardGet pos.board ((s.rank - 1) * 9 + (s.file - 1))
  else none

/-- Go `setPiece` with its bounds guard. -/
def setPieceSq (pos : Position) (s : Square) (c : Option Piece) : Position :=
  if 1 ≤ s.file ∧ s.file ≤ 9 ∧ 1 ≤ s.rank ∧ s.rank ≤ 9 then
    setBoardIdx pos ((s.rank - 1) * 9 + (s.file - 1)) c
  else pos

def toggleTurn (p : Position) : Position := { p with turn := p.turn.other }

/-- SFEN text of one piece (Go `rankToSFEN` cell body). -/
def pieceSFENText (pc : Piece) : Str :=
  let t := if pc.promoted then '+' :: pc.kind else pc.kind
  if pc.color = .white then t.map Char.toLower else t

/-- Run-length emission of one rank (Go `rankToSFEN` loop). -/
def rankCellsToSFEN : List (Option Piece) → Nat → Str
  | [], empty => if empty > 0 then (toString empty).data else []
  | none :: rest, empty => rankCellsToSFEN rest (empty + 1)
  | some pc :: rest, empty =>
      (if empty > 0 then (toString empty).data else []) ++
        pieceSFENText pc ++ rankCellsToSFEN rest 0

/-- Go `rankToSFEN`: files 9 down to 1. -/
def rankToSFEN (pos : Position) (rank : Nat) : Str :=
  rankCellsToSFEN ((List.range 9).map (fun k => boardGet pos.board ((rank - 1) * 9 + (8 - k)))) 0

def handOrder : List Str :=
  [strOf "R", strOf "B", strOf "G", strOf "S", strOf "N", strOf "L", strOf "P"]

/-- One side of Go `buildHands`. -/
def handEntriesText (h : Hand) (lower : Bool) : List Str → Str
  | [] => []
  | k :: rest =>
      (if handGet h k > 0 then
        (if handGet h k > 1 then (toString (handGet h k)).data else []) ++
          (if lower then k.map Char.toLower else k)
       else []) ++ handEntriesText h lower rest

/-- Go `buildHands`. -/
def buildHands (b w : Hand) : Str :=
  handEntriesText b false handOrder ++ handEntriesText w true handOrder

/-- Go `ToSFEN`. -/
def toSFEN (pos : Position) (moveNumber : Nat) : Str :=
  let board := List.intercalate (strOf "/") ((List.range 9).map (fun i => rankToSFEN pos (i + 1)))
  let turn := if pos.turn = Color.white then strOf "w" else strOf "b"
  let hand0 := buildHands pos.handB pos.handW
  let hand := if hand0 = [] then strOf "-" else hand0
  board ++ ' ' :: turn ++ ' ' :: hand ++ ' ' :: (toString moveNumber).data

def standardSFEN : Str :=
  strOf "lnsgkgsnl/1r5b1/ppppppppp/9/9/9/PPPPPPPPP/1B5R1/LNSGKGSNL b - 1"

/-- Go `sfenPiece`. -/
def sfenPiece (r : Char) : Option Str :=
  if r = 'P' then some (strOf "P")
  else if r = 'L' then some (strOf "L")
  else if r = 'N' then some (strOf "N")
  else if r = 'S' then some (strOf "S")
  else if r = 'G' then some (strOf "G")
  else if r = 'B' then some (strOf "B")
  else if r = 'R' then some (strOf "R")
  else if r = 'K' then some (strOf "K")
  else none

/-- Go `strings.Split` with a one-character separator. -/
def splitOnChar : Str → Char → List Str
  | [], _ => [[]]
  | c :: rest, sep =>
      let r := splitOnChar rest sep
      if c == sep then [] :: r
      else
        match r with
        | [] => [[c]]
        | h :: t => (c :: h) :: t

/-- Go `strings.Fields` (split on white-space runs, no empty fields). -/
def splitFieldsGo : Str → Str → List Str
  | [], acc => if acc.isEmpty then [] else [acc]
  | c :: rest, acc =>
      if isSpaceChar c then
        if acc.isEmpty then splitFieldsGo rest [] else acc :: splitFieldsGo rest []
      else splitFieldsGo rest (acc ++ [c])

def splitFields (s : Str) : List Str := splitFieldsGo s []

/-- One cell of Go `parseBoardSFEN`: color split, glyph lookup, file
bound, board write.  `file` is the Go `int` loop variable. -/
def placeSFENCell (pos : Position) (rankIndex : Nat) (file : Int) (promoted : Bool)
    (r : Char) : Except String (Position × Int) :=
  let white := 'a' ≤ r ∧ r ≤ 'z'
  let rU := if white then Char.ofNat (r.toNat - 32) else r
  let color := if white then Color.white else Color.black
  match sfenPiece rU with
  | none => .error ("unknown sfen piece " ++ String.mk [rU])
  | some kind =>
      if file < 1 then .error "too many files in rank"
      else
        .ok (setBoardIdx pos (rankIndex * 9 + (file.toNat - 1)) (some ⟨kind, color, promoted⟩),
             file - 1)

/-- Rune loop of Go `parseBoardSFEN` for one rank. -/
def parseRankCellsGo (rankIndex : Nat) : Str → Int → Position → Except String Position
  | [], file, pos =>
      if file ≠ 0 then
        .error ("rank " ++ toString (rankIndex + 1) ++ " does not have 9 files")
      else .ok pos
  | '+' :: rest, file, pos =>
      match rest with
      | [] => .error "dangling promotion marker"
      | r :: rest2 =>
          match placeSFENCell pos rankIndex file true r with
          | .error e => .error e
          | .ok (pos1, file1) => parseRankCellsGo rankIndex rest2 file1 pos1
  | r :: rest, file, pos =>
      if '1' ≤ r ∧ r ≤ '9' then
        parseRankCellsGo rankIndex rest (file - (r.toNat - '0'.toNat)) pos
      else
        match placeSFENCell pos rankIndex file false r with
        | .error e => .error e
        | .ok (pos1, file1) => parseRankCellsGo rankIndex rest file1 pos1

/-- Rank loop of Go `parseBoardSFEN`. -/
def parseRanksGo : List Str → Nat → Position → Except String Position
  | [], _, pos => .ok pos
  | rk :: rest, rankIndex, pos =>
      match parseRankCellsGo rankIndex rk 9 pos with
      | .error e => .error e
      | .ok pos1 => parseRanksGo rest (rankIndex + 1) pos1

/-- Go `parseBoardSFEN`. -/
def parseBoardSFEN (board : Str) (pos : Position) : Except String Position :=
  let ranks := splitOnChar board '/'
  if ranks.length ≠ 9 then .error ("invalid board ranks: " ++ toString ranks.length)
  else parseRanksGo ranks 0 pos

/-- Rune loop of Go `parseHandsSFEN`. -/
def parseHandsSFENGo : Str → Nat → Position → Except String Position
  | [], count, pos =>
      if count ≠ 0 then .error "trailing hand count" else .ok pos
  | r :: rest, count, pos =>
      if '0' ≤ r ∧ r ≤ '9' then
        parseHandsSFENGo rest (count * 10 + (r.toNat - '0'.toNat)) pos
      else
        let count1 := if count = 0 then 1 else count
        let white := 'a' ≤ r ∧ r ≤ 'z'
        let rU := if white then Char.ofNat (r.toNat - 32) else r
        let color := if white then Color.white else Color.black
        match sfenPiece rU with
        | none => .error ("unknown hand piece " ++ String.mk [rU])
        | some piece =>
            parseHandsSFENGo rest 0 (setHand pos color (handAdd (pos.hand color) piece count1))

/-- Go `parseHandsSFEN`. -/
def parseHandsSFEN (hand : Str) (pos : Position) : Except String Position :=
  if hand = strOf "-" then .ok pos
  else parseHandsSFENGo hand 0 pos

/-- Go `parseSFENPosition`. -/
def parseSFENPosition (sfen : Str) : Except String Position :=
  let fields := splitFields sfen
  if fields.length < 3 then .error ("invalid sfen: " ++ String.mk sfen)
  else
    let turn := if fields.getD 1 [] = strOf "w" then Color.white else Color.black
    let pos : Position := ⟨emptyBoard, Hand.empty, Hand.empty, turn⟩
    match parseBoardSFEN (fields.getD 0 []) pos with
    | .error e => .error e
    | .ok pos1 => parseHandsSFEN (fields.getD 2 []) pos1

/-- Go `strings.TrimPrefix`. -/
def dropPre (s pre : Str) : Str :=
  if startsWithSub s pre then s.drop pre.length else s

/-- Go `strings.TrimSuffix`. -/
def dropSuf (s suf : Str) : Str :=
  if endsWithSub s suf then s.take (s.length - suf.length) else s

/-- Go `basePiece`. -/
def basePiece (r : Char) : Option Str :=
  if r = '歩' then some (strOf "P")
  else if r = '香' then some (strOf "L")
  else if r = '桂' then some (strOf "N")
  else if r = '銀' then some (strOf "S")
  else if r = '金' then some (strOf "G")
  else if r = '角' then some (strOf "B")
  else if r = '飛' then some (strOf "R")
  else if r = '玉' ∨ r = '王' then some (strOf "K")
  else none

/-- Go `promotedBase`. -/
def promotedBase (r : Char) : Option Str :=
  if r = '銀' then some (strOf "S")
  else if r = '桂' then some (strOf "N")
  else if r = '香' then some (strOf "L")
  else if r = '歩' then some (strOf "P")
  else none

/-- Go `parseBoardPiece`: piece text and the number of runes consumed. -/
def parseBoardPiece : Str → Except String (Str × Nat)
  | [] => .error "missing piece"
  | 'と' :: _ => .ok (strOf "+P", 1)
  | '馬' :: _ => .ok (strOf "+B", 1)
  | '龍' :: _ => .ok (strOf "+R", 1)
  | '竜' :: _ => .ok (strOf "+R", 1)
  | '成' :: rest =>
      match rest with
      | [] => .error "missing promoted piece"
      | r :: _ =>
          match promotedBase r with
          | none => .error ("unknown promoted piece " ++ String.mk [r])
          | some b => .ok ('+' :: b, 2)
  | r :: _ =>
      match basePiece r with
      | none => .error ("unknown piece " ++ String.mk [r])
      | some b => .ok (b, 1)

/-- Go `compressEmpty`. -/
def compressEmpty : List Str → Nat → Str
  | [], empty => if empty > 0 then (toString empty).data else []
  | cell :: rest, empty =>
      if cell = [] then compressEmpty rest (empty + 1)
      else (if empty > 0 then (toString empty).data else []) ++ cell ++ compressEmpty rest 0

/-- Rune loop of Go `parseBoardRow`; the fuel argument bounds the number
of iterations (each one consumes at least one rune, so the initial rune
count suffices). -/
def parseBoardRowGo : Nat → Str → Except String (List Str)
  | _, [] => .ok []
  | 0, _ :: _ => .error "row scan did not terminate"
  | fuel + 1, c :: rest =>
      if c == ' ' || c == '\t' || c == '　' then parseBoardRowGo fuel rest
      else if c == '・' then
        match parseBoardRowGo fuel rest with
        | .error e => .error e
        | .ok cs => .ok ([] :: cs)
      else if c == 'v' then
        match rest with
        | [] => .error "dangling gote marker"
        | _ :: _ =>
            match parseBoardPiece rest with
            | .error e => .error e
            | .ok (piece, consumed) =>
                match parseBoardRowGo fuel (rest.drop consumed) with
                | .error e => .error e
                | .ok cs => .ok (piece.map Char.toLower :: cs)
      else
        match parseBoardPiece (c :: rest) with
        | .error e => .error e
        | .ok (piece, consumed) =>
            match parseBoardRowGo fuel ((c :: rest).drop consumed) with
            | .error e => .error e
            | .ok cs => .ok (piece :: cs)

/-- Go `parseBoardRow`. -/
def parseBoardRow (line : Str) : Except String Str :=
  let trim0 := goTrim line
  let trim1 := dropSuf (dropPre trim0 (strOf "|")) (strOf "|")
  match parseBoardRowGo trim1.length trim1 with
  | .error e => .error e
  | .ok cells =>
      if cells.length ≠ 9 then .error ("expected 9 cells, got " ++ toString cells.length)
      else .ok (compressEmpty cells 0)

/-- Go `parseBoardLines`. -/
def parseBoardLines (lines : List Str) : Except String Str :=
  if lines.length < 9 then
    .error ("board lines must be 9 rows, got " ++ toString lines.length)
  else
    match (lines.take 9).mapM parseBoardRow with
    | .error e => .error e
    | .ok rows => .ok (List.intercalate (strOf "/") rows)

/-- Go `collectBoardLines`. -/
def collectBoardLines (lines : List Str) : List Str :=
  lines.filterMap (fun l =>
    let t := goTrim l
    if startsWithSub t (strOf "|") && endsWithSub t (strOf "|") then some t else none)

/-- Go `parseTurn`. -/
def parseTurn : List Str → Str
  | [] => strOf "b"
  | l :: rest =>
      let t := goTrim l
      if startsWithSub t (strOf "手番") then
        if containsSub t (strOf "後手") then strOf "w"
        else if containsSub t (strOf "先手") then strOf "b"
        else parseTurn rest
      else parseTurn rest

/-- Go `japaneseNumber`. -/
def japaneseNumber (r : Char) : Option Nat :=
  if r = '一' then some 1
  else if r = '二' then some 2
  else if r = '三' then some 3
  else if r = '四' then some 4
  else if r = '五' then some 5
  else if r = '六' then some 6
  else if r = '七' then some 7
  else if r = '八' then some 8
  else if r = '九' then some 9
  else if r = '十' then some 10
  else none

/-- ASCII branch of Go `parseCount`. -/
def parseAsciiCount : Str → Nat → Nat → Nat × Nat
  | [], v, i => (v, i)
  | r :: rest, v, i =>
      if '0' ≤ r ∧ r ≤ '9' then parseAsciiCount rest (v * 10 + (r.toNat - '0'.toNat)) (i + 1)
      else (v, i)

/-- Kanji branch of Go `parseCount`. -/
def parseJpCount : Str → Nat → Nat → Nat × Nat
  | [], v, i => (v, i)
  | r :: rest, v, i =>
      match japaneseNumber r with
      | some n => parseJpCount rest (v * 10 + n) (i + 1)
      | none => (v, i)

/-- Go `parseCount`: value and number of runes consumed. -/
def parseCount (runes : Str) : Nat × Nat :=
  match runes with
  | [] => (0, 0)
  | r :: _ =>
      if '0' ≤ r ∧ r ≤ '9' then parseAsciiCount runes 0 0
      else
        let vc := parseJpCount runes 0 0
        if vc.1 = 0 then (0, 0) else vc

/-- Go `nextHandToken`: piece letter, count, remaining text. -/
def nextHandToken (text : Str) : Except String (Str × Nat × Str) :=
  match text with
  | [] => .error "empty hand token"
  | r :: rest =>
      match basePiece r with
      | none => .error ("unknown hand piece " ++ String.mk [r])
      | some piece =>
          let vc := parseCount rest
          if vc.2 = 0 then .ok (piece, 1, rest)
          else .ok (piece, vc.1, rest.drop vc.2)

/-- Token loop of Go `parseHandLine`; fuel bounds iterations (each one
consumes at least one rune). -/
def parseHandLineGo : Nat → Str → Hand → Except String Hand
  | _, [], h => .ok h
  | 0, _ :: _, _ => .error "hand line scan did not terminate"
  | fuel + 1, text, h =>
      match nextHandToken text with
      | .error e => .error e
      | .ok (piece, count, rest) => parseHandLineGo fuel (goTrim rest) (handAdd h piece count)

/-- Go `strings.SplitN s sep 2` when `sep` is one character: the parts
before and after the first occurrence. -/
def splitOnFirstChar : Str → Char → Option (Str × Str)
  | [], _ => none
  | c :: rest, sep =>
      if c == sep then some ([], rest)
      else
        match splitOnFirstChar rest sep with
        | none => none
        | some (a, b) => some (c :: a, b)

/-- Go `parseHandLine`. -/
def parseHandLine (line : Str) : Except String Hand :=
  let parts :=
    match splitOnFirstChar line '：' with
    | some p => some p
    | none => splitOnFirstChar line ':'
  match parts with
  | none => .error ("invalid hand line: " ++ String.mk line)
  | some (_, rest) =>
      let text := goTrim rest
      if text = strOf "なし" then .ok Hand.empty
      else parseHandLineGo text.length text Hand.empty

/-- Go `parseHandsCounts`. -/
def parseHandsCounts : List Str → Hand → Hand → Except String (Hand × Hand)
  | [], black, white => .ok (black, white)
  | l :: rest, black, white =>
      let t := goTrim l
      if startsWithSub t (strOf "先手の持駒") then
        match parseHandLine t with
        | .error e => .error e
        | .ok counts => parseHandsCounts rest (mergeCounts black counts) white
      else if startsWithSub t (strOf "後手の持駒") then
        match parseHandLine t with
        | .error e => .error e
        | .ok counts => parseHandsCounts rest black (mergeCounts white counts)
      else parseHandsCounts rest black white

/-- Condition of the handicap-header loop in Go `initialPositionFromKIF`:
a line that starts with the handicap label and mentions the even-game
marker. -/
def isHirateLine (l : Str) : Bool :=
  let t := goTrim l
  startsWithSub t (strOf "手合割") && containsSub t (strOf "平手")

/-- Go `initialPositionFromKIF`. -/
def initialPositionFromKIF (lines : List Str) : Except String Position :=
  if lines.any isHirateLine then
    parseSFENPosition standardSFEN
  else
    let boardLines := collectBoardLines lines
    if boardLines = [] then .error "no board definition found"
    else
      match parseBoardLines boardLines with
      | .error e => .error e
      | .ok board =>
          let turn := parseTurn lines
          match parseHandsCounts lines Hand.empty Hand.empty with
          | .error e => .error e
          | .ok (black, white) =>
              let hand0 := buildHands black white
              let hand := if hand0 = [] then strOf "-" else hand0
              parseSFENPosition (board ++ ' ' :: turn ++ ' ' :: hand ++ strOf " 1")

/-- Go `usiMove`. -/
structure UsiMove where
  fromSq : Square
  toSq : Square
  isDrop : Bool
  piece : Str
  promote : Bool
deriving DecidableEq

/-- Go `parseUSISquare`.  Go indexes bytes; the byte subtractions wrap
modulo 256, modeled on the code points (they agree on ASCII input, the
only input the program generates). -/
def parseUSISquare (text : Str) : Except String Square :=
  match text with
  | [c0, c1] =>
      let file := (c0.toNat + 256 - '0'.toNat) % 256
      if file < 1 ∨ file > 9 then .error ("invalid file: " ++ String.mk text)
      else
        let rank := (c1.toNat + 256 - 'a'.toNat) % 256 + 1
        if rank < 1 ∨ rank > 9 then .error ("invalid rank: " ++ String.mk text)
        else .ok ⟨file, rank⟩
  | _ => .error ("invalid square: " ++ String.mk text)

/-- Go `parseUSIMove`. -/
def parseUSIMove (move : Str) : Except String UsiMove :=
  if containsSub move (strOf "*") then
    match splitOnFirstChar move '*' with
    | none => .error ("invalid drop move: " ++ String.mk move)
    | some (before, after) =>
        match before with
        | [c] =>
            match parseUSISquare after with
            | .error e => .error e
            | .ok dst => .ok ⟨⟨0, 0⟩, dst, true, [c.toUpper], false⟩
        | _ => .error ("invalid drop move: " ++ String.mk move)
  else
    if move.length < 4 then .error ("invalid move: " ++ String.mk move)
    else
      match parseUSISquare (move.take 2) with
      | .error e => .error e
      | .ok fromSq =>
          match parseUSISquare ((move.drop 2).take 2) with
          | .error e => .error e
          | .ok toSq =>
              if move.length > 4 then
                if move.getD 4 ' ' ≠ '+' then
                  .error ("invalid promotion marker: " ++ String.mk move)
                else .ok ⟨fromSq, toSq, false, [], true⟩
              else .ok ⟨fromSq, toSq, false, [], false⟩

/-- Go `applyDrop`, with the receiver state returned alongside the error
so that partial mutation before an early return is observable. -/
def applyDropSt (p : Position) (mv : UsiMove) : Option String × Position :=
  let hand := p.hand p.turn
  if handGet hand mv.piece = 0 then
    (some ("no " ++ String.mk mv.piece ++ " in hand"), p)
  else if (pieceAt p mv.toSq).isSome then
    (some "drop destination occupied", p)
  else
    let p1 := setHand p p.turn (handSub1 hand mv.piece)
    let p2 := setPieceSq p1 mv.toSq (some ⟨mv.piece, p.turn, false⟩)
    (none, toggleTurn p2)

/-- Go `applyMove`, with the receiver state returned alongside the error.
The promotion rejection happens after the capture bookkeeping and the
source-square clearing, exactly as in the source. -/
def applyMoveSt (p : Position) (mv : UsiMove) : Option String × Position :=
  match pieceAt p mv.fromSq with
  | none => (some ("no piece at " ++ String.mk (formatSquare mv.fromSq)), p)
  | some piece =>
      if piece.color ≠ p.turn then (some "moving opponent piece", p)
      else
        match pieceAt p mv.toSq with
        | some captured =>
            if captured.color = p.turn then (some "capturing own piece", p)
            else
              applyMoveTail (setHand p p.turn (handAdd (p.hand p.turn) captured.kind 1)) piece mv
        | none => applyMoveTail p piece mv
where
  applyMoveTail (pcur : Position) (piece : Piece) (mv : UsiMove) : Option String × Position :=
    let p1 := setPieceSq pcur mv.fromSq none
    if mv.promote ∧ (piece.kind = strOf "K" ∨ piece.kind = strOf "G") then
      (some "cannot promote king or gold", p1)
    else
      let moved : Piece := { piece with promoted := if mv.promote then true else piece.promoted }
      let p2 := setPieceSq p1 mv.toSq (some moved)
      (none, toggleTurn p2)

/-- Go `ApplyMove`. -/
def applyMoveGo (p : Position) (move : Str) : Option String × Position :=
  match parseUSIMove move with
  | .error e => (some e, p)
  | .ok mv => if mv.isDrop then applyDropSt p mv else applyMoveSt p mv

/-- Go `codeSpec`. -/
structure CodeSpec where
  kind : Str
  bits : Nat
  bitLen : Nat
  isEmpty : Bool
deriving DecidableEq

/-- Go `boardCodes`. -/
def boardCodes : List CodeSpec :=
  [⟨[], 0, 1, true⟩,
   ⟨strOf "P", 1, 2, false⟩,
   ⟨strOf "L", 3, 4, false⟩,
   ⟨strOf "N", 11, 4, false⟩,
   ⟨strOf "S", 7, 4, false⟩,
   ⟨strOf "G", 15, 5, false⟩,
   ⟨strOf "B", 31, 6, false⟩,
   ⟨strOf "R", 63, 6, false⟩]

/-- Go `handCodes`. -/
def handCodes : List CodeSpec :=
  [⟨strOf "P", 0, 1, false⟩,
   ⟨strOf "L", 1, 3, false⟩,
   ⟨strOf "N", 5, 3, false⟩,
   ⟨strOf "S", 3, 3, false⟩,
   ⟨strOf "G", 7, 4, false⟩,
   ⟨strOf "B", 15, 5, false⟩,
   ⟨strOf "R", 31, 5, false⟩]

/-- Go `findCode` (the map iteration is deterministic here because kinds
are unique within each codebook). -/
def findCode (codes : List CodeSpec) (kind : Str) (isHand : Bool) : Option CodeSpec :=
  codes.find? (fun c => c.kind == kind || (!isHand && c.isEmpty && kind == []))

def maxLenOf (codes : List CodeSpec) : Nat :=
  codes.foldl (fun m c => max m c.bitLen) 0

/-- LSB-first bit list of a value, as `writeBits` emits it. -/
def natBits : Nat → Nat → List Bool
  | 0, _ => []
  | k + 1, v => decide (v % 2 = 1) :: natBits k (v / 2)

def codeBits (c : CodeSpec) : List Bool := natBits c.bitLen c.bits

/-- Go `isPromotable`. -/
def isPromotable (kind : Str) : Bool :=
  kind == strOf "P" || kind == strOf "L" || kind == strOf "N" ||
  kind == strOf "S" || kind == strOf "B" || kind == strOf "R"

def colorBit : Color → Bool
  | .black => false
  | .white => true

/-- King scan of Go `kingSquares` (the `!= -1` occupancy tests become
`Option.isSome` tests). -/
def kingScanGo (pos : Position) : List Nat → Option Nat → Option Nat → Except String (Nat × Nat)
  | [], some bi, some wi => .ok (bi, wi)
  | [], none, _ => .error "missing king"
  | [], some _, none => .error "missing king"
  | i :: rest, b, w =>
      match boardGet pos.board i with
      | some pc =>
          if pc.kind = strOf "K" then
            if pc.color = .black then
              if b.isSome then .error "multiple black kings"
              else kingScanGo pos rest (some i) w
            else
              if w.isSome then .error "multiple white kings"
              else kingScanGo pos rest b (some i)
          else kingScanGo pos rest b w
      | none => kingScanGo pos rest b w

/-- Go `kingSquares`. -/
def kingSquares (pos : Position) : Except String (Nat × Nat) :=
  kingScanGo pos (List.range 81) none none

/-- Bits one non-king square contributes in Go `PackPosition256`. -/
def packCell (cell : Option Piece) : Except String (List Bool) :=
  match cell with
  | none =>
      match findCode boardCodes [] false with
      | some c => .ok (codeBits c)
      | none => .error "unknown piece code"
  | some pc =>
      if pc.kind = strOf "K" then .error "unexpected king"
      else
        match findCode boardCodes pc.kind false with
        | none => .error ("unknown piece code: " ++ String.mk pc.kind)
        | some c =>
            .ok (codeBits c ++ [colorBit pc.color] ++
                 (if isPromotable pc.kind then [pc.promoted] else []))

/-- Board loop of Go `PackPosition256`. -/
def packSquares (pos : Position) : List Nat → Except String (List Bool)
  | [] => .ok []
  | sq :: rest =>
      match packCell (boardGet pos.board sq) with
      | .error e => .error e
      | .ok cb =>
          match packSquares pos rest with
          | .error e => .error e
          | .ok rb => .ok (cb ++ rb)

def handKindsOrder : List Str :=
  [strOf "P", strOf "L", strOf "N", strOf "S", strOf "G", strOf "B", strOf "R"]

/-- Hand entries in the order the Go hand loop emits them. -/
def handEntries (pos : Position) : List (Str × Color) :=
  [Color.black, Color.white].flatMap (fun c =>
    handKindsOrder.flatMap (fun k => List.replicate (handGet (pos.hand c) k) (k, c)))

/-- Bits one hand entry contributes in Go `PackPosition256`. -/
def packHandEntry (k : Str) (c : Color) : Except String (List Bool) :=
  match findCode handCodes k true with
  | none => .error ("unknown piece code: " ++ String.mk k)
  | some spec =>
      .ok (codeBits spec ++ [colorBit c] ++ (if isPromotable k then [false] else []))

/-- Hand loop of Go `PackPosition256`. -/
def packHandsList : List (Str × Color) → Except String (List Bool)
  | [] => .ok []
  | (k, c) :: rest =>
      match packHandEntry k c with
      | .error e => .error e
      | .ok eb =>
          match packHandsList rest with
          | .error e => .error e
          | .ok rb => .ok (eb ++ rb)

/-- Go `Packed256`: the four `uint64` words hold the 256 bit positions;
writer and reader address them identically, so the value is modeled as
the bit list in position order. -/
structure Packed256 where
  bits : List Bool
deriving DecidableEq

/-- Go `PackPosition256`.  The sequential `bitWriter256` is modeled by
concatenation; the writer fails exactly when a bit beyond position 255
would be written or the final position is not 256, i.e. exactly when the
total emitted length differs from 256, which is the final check here. -/
def packPosition256 (pos : Position) : Except String Packed256 :=
  match kingSquares pos with
  | .error e => .error e
  | .ok (bk, wk) =>
      match packSquares pos ((List.range 81).filter (fun sq => sq ≠ bk && sq ≠ wk)) with
      | .error e => .error e
      | .ok boardBits =>
          match packHandsList (handEntries pos) with
          | .error e => .error e
          | .ok handBits =>
              let bits := (if pos.turn = Color.white then true else false) ::
                (natBits 7 bk ++ natBits 7 wk ++ boardBits ++ handBits)
              if bits.length = 256 then .ok ⟨bits⟩
              else .error ("packed length is " ++ toString bits.length ++ " bits, expected 256")

/-- Go `bitReader256.readBit`: underflow when all 256 bits are consumed,
i.e. when nothing of the stream remains. -/
def readBit : List Bool → Except String (Bool × List Bool)
  | [] => .error "bitstream underflow"
  | b :: r => .ok (b, r)

/-- Go `bitReader256.readBits` (LSB first). -/
def readBits : Nat → List Bool → Except String (Nat × List Bool)
  | 0, r => .ok (0, r)
  | n + 1, r =>
      match readBit r with
      | .error e => .error e
      | .ok (b, r1) =>
          match readBits n r1 with
          | .error e => .error e
          | .ok (v, r2) => .ok ((if b then 1 else 0) + 2 * v, r2)

/-- Go `bitReader256.readCode` loop: lengths 1 up to the codebook's
maximum, accumulating the value LSB first. -/
def readCodeGo (codes : List CodeSpec) : Nat → Nat → Nat → List Bool →
    Except String (CodeSpec × List Bool)
  | 0, _, _, _ => .error "invalid code"
  | budget + 1, length, value, r =>
      match readBit r with
      | .error e => .error e
      | .ok (b, r1) =>
          let v := value + (if b then 2 ^ (length - 1) else 0)
          match codes.find? (fun c => c.bitLen == length && c.bits == v) with
          | some c => .ok (c, r1)
          | none => readCodeGo codes budget (length + 1) v r1

def readCode (codes : List CodeSpec) (r : List Bool) : Except String (CodeSpec × List Bool) :=
  readCodeGo codes (maxLenOf codes) 1 0 r

/-- Board loop of Go `UnpackPosition256`. -/
def unpackSquares : List Nat → Position → List Bool → Except String (Position × List Bool)
  | [], pos, r => .ok (pos, r)
  | sq :: rest, pos, r =>
      match readCode boardCodes r with
      | .error e => .error e
      | .ok (c, r1) =>
          if c.isEmpty then unpackSquares rest pos r1
          else
            match readBit r1 with
            | .error e => .error e
            | .ok (cb, r2) =>
                let color := if cb then Color.white else Color.black
                if isPromotable c.kind then
                  match readBit r2 with
                  | .error e => .error e
                  | .ok (pb, r3) =>
                      unpackSquares rest (setBoardIdx pos sq (some ⟨c.kind, color, pb⟩)) r3
                else unpackSquares rest (setBoardIdx pos sq (some ⟨c.kind, color, false⟩)) r2

/-- Hand loop of Go `UnpackPosition256` (`for reader.pos < 256`): runs
while bits remain; the fuel of 256 covers any stream of at most 256 bits
since every iteration consumes at least one bit. -/
def readHandsGo : Nat → Position → List Bool → Except String Position
  | _, pos, [] => .ok pos
  | 0, _, _ :: _ => .error "hand loop did not terminate"
  | fuel + 1, pos, r =>
      match readCode handCodes r with
      | .error e => .error e
      | .ok (c, r1) =>
          match readBit r1 with
          | .error e => .error e
          | .ok (cb, r2) =>
              let color := if cb then Color.white else Color.black
              if isPromotable c.kind then
                match readBit r2 with
                | .error e => .error e
                | .ok (pb, r3) =>
                    if pb then .error ("promoted piece in hand: " ++ String.mk c.kind)
                    else readHandsGo fuel (setHand pos color (handAdd (pos.hand color) c.kind 1)) r3
              else readHandsGo fuel (setHand pos color (handAdd (pos.hand color) c.kind 1)) r2

/-- The position `UnpackPosition256` accumulates into before its board
loop: empty board except the two kings, empty hands, the decoded turn. -/
def unpackStart (turn : Color) (bk wk : Nat) : Position :=
  setBoardIdx (setBoardIdx ⟨emptyBoard, Hand.empty, Hand.empty, turn⟩ bk
    (some ⟨strOf "K", Color.black, false⟩)) wk (some ⟨strOf "K", Color.white, false⟩)

/-- Go `UnpackPosition256`. -/
def unpackPosition256 (p : Packed256) : Except String Position :=
  match readBit p.bits with
  | .error e => .error e
  | .ok (tb, r0) =>
      match readBits 7 r0 with
      | .error e => .error e
      | .ok (bk, r1) =>
          match readBits 7 r1 with
          | .error e => .error e
          | .ok (wk, r2) =>
              if bk = wk then .error ("kings share square " ++ toString bk)
              else
                match unpackSquares ((List.range 81).filter (fun sq => sq ≠ bk && sq ≠ wk))
                    (unpackStart (if tb then Color.white else Color.black) bk wk) r2 with
                | .error e => .error e
                | .ok (pos2, r3) => readHandsGo 256 pos2 r3

/-!
Legality engine.  `IsInCheck` and `IsLegalPosition` are declared by the
repository's `legality_test.go` but their implementation file is not part
of the source tree available here, so the engine is modelled from the
specification (§4.2): per-kind one-step offset sets relative to the
attacker's forward direction, knight jumps, blocked sliding lines, and
the Gold-like sets for promoted small pieces.
-/

/-- Modelled from the spec: forward rank direction, rank-decreasing for
Black and rank-increasing for White. -/
def fwd : Color → Int
  | .black => -1
  | .white => 1

/-- Modelled from the spec: one-step offset sets `(df, dr)` per kind. -/
def goldSteps (c : Color) : List (Int × Int) :=
  [(0, fwd c), (1, fwd c), (-1, fwd c), (1, 0), (-1, 0), (0, -(fwd c))]

def silverSteps (c : Color) : List (Int × Int) :=
  [(0, fwd c), (1, fwd c), (-1, fwd c), (1, -(fwd c)), (-1, -(fwd c))]

def kingSteps : List (Int × Int) :=
  [(0, 1), (0, -1), (1, 0), (-1, 0), (1, 1), (1, -1), (-1, 1), (-1, -1)]

def knightSteps (c : Color) : List (Int × Int) :=
  [(1, 2 * fwd c), (-1, 2 * fwd c)]

def orthoDirs : List (Int × Int) := [(0, 1), (0, -1), (1, 0), (-1, 0)]

def diagDirs : List (Int × Int) := [(1, 1), (1, -1), (-1, 1), (-1, -1)]

/-- Board cell by 1-based integer file and rank, empty outside the board. -/
def pieceAtInt (pos : Position) (f r : Int) : Option Piece :=
  if 1 ≤ f ∧ f ≤ 9 ∧ 1 ≤ r ∧ r ≤ 9 then
    boardGet pos.board ((r.toNat - 1) * 9 + (f.toNat - 1))
  else none

/-- Modelled from the spec: a slide from `(f, r)` in direction `(df, dr)`
reaches `(kf, kr)` with no occupied square strictly between.  The fuel of
9 covers the board diameter. -/
def rayReaches (pos : Position) : Nat → Int → Int → Int → Int → Int → Int → Bool
  | 0, _, _, _, _, _, _ => false
  | n + 1, f, r, df, dr, kf, kr =>
      let nf := f + df
      let nr := r + dr
      if nf = kf ∧ nr = kr then true
      else if 1 ≤ nf ∧ nf ≤ 9 ∧ 1 ≤ nr ∧ nr ≤ 9 then
        if (pieceAtInt pos nf nr).isSome then false
        else rayReaches pos n nf nr df dr kf kr
      else false

def stepHits (steps : List (Int × Int)) (af ar kf kr : Int) : Bool :=
  steps.any (fun s => af + s.1 = kf && ar + s.2 = kr)

def slideHits (pos : Position) (dirs : List (Int × Int)) (af ar kf kr : Int) : Bool :=
  dirs.any (fun d => rayReaches pos 9 af ar d.1 d.2 kf kr)

/-- Modelled from the spec: does the piece `pc` sitting on `(af, ar)`
attack the square `(kf, kr)`? -/
def attacksSq (pos : Position) (pc : Piece) (af ar kf kr : Int) : Bool :=
  if pc.kind = strOf "P" then
    if pc.promoted then stepHits (goldSteps pc.color) af ar kf kr
    else stepHits [(0, fwd pc.color)] af ar kf kr
  else if pc.kind = strOf "L" then
    if pc.promoted then stepHits (goldSteps pc.color) af ar kf kr
    else slideHits pos [(0, fwd pc.color)] af ar kf kr
  else if pc.kind = strOf "N" then
    if pc.promoted then stepHits (goldSteps pc.color) af ar kf kr
    else stepHits (knightSteps pc.color) af ar kf kr
  else if pc.kind = strOf "S" then
    if pc.promoted then stepHits (goldSteps pc.color) af ar kf kr
    else stepHits (silverSteps pc.color) af ar kf kr
  else if pc.kind = strOf "G" then stepHits (goldSteps pc.color) af ar kf kr
  else if pc.kind = strOf "K" then stepHits kingSteps af ar kf kr
  else if pc.kind = strOf "B" then
    slideHits pos diagDirs af ar kf kr ||
      (pc.promoted && stepHits orthoDirs af ar kf kr)
  else if pc.kind = strOf "R" then
    slideHits pos orthoDirs af ar kf kr ||
      (pc.promoted && stepHits diagDirs af ar kf kr)
  else false

/-- File and rank (1-based) of a flattened board index. -/
def idxFile (i : Nat) : Int := (i % 9 : Nat) + 1

def idxRank (i : Nat) : Int := (i / 9 : Nat) + 1

/-- Modelled from the spec: the square of `c`'s King, scanning the board
in index order. -/
def kingIdx (pos : Position) (c : Color) : Option Nat :=
  (List.range 81).find? (fun i =>
    match boardGet pos.board i with
    | some pc => pc.kind == strOf "K" && pc.color == c
    | none => false)

/-- Does any piece of color `ac` attack the square with index `k`? -/
def anyAttacker (pos : Position) (ac : Color) (k : Nat) : Bool :=
  (List.range 81).any (fun i =>
    match boardGet pos.board i with
    | some pc => pc.color == ac && attacksSq pos pc (idxFile i) (idxRank i) (idxFile k) (idxRank k)
    | none => false)

/-- Modelled from the spec: `is_in_check(color)`, failing `MissingKing`
when `color` has no King on the board. -/
def isInCheck (pos : Position) (c : Color) : Except String Bool :=
  match kingIdx pos c with
  | none => .error "missing king"
  | some k => .ok (anyAttacker pos c.other k)

/-- Modelled from the spec: `is_legal()` — the side that is not to move
must not be in check.  The missing-King outcome is unspecified for this
predicate; it is mapped to `true` and never relied on. -/
def isLegalPosition (pos : Position) : Bool :=
  match isInCheck pos pos.turn.other with
  | .ok b => !b
  | .error _ => true

/-- Bit weight of one unit of a piece kind in `PackPosition256`, derived
from the hand codebook: hand-code length + colour bit + promotion bit.  A
board piece of the same kind spends exactly one more bit than this and
frees the one-bit empty-cell code, so the same weight applies to board
pieces.  Kinds without a hand code (the King, which is never written as a
cell or hand entry) weigh 0. -/
def kindWeight (k : Str) : Nat :=
  match findCode handCodes k true with
  | some c => c.bitLen + 1 + (if isPromotable k then 1 else 0)
  | none => 0

def boardWeight (pos : Position) : Nat :=
  ((List.range 81).map (fun i =>
    match boardGet pos.board i with
    | none => 0
    | some pc => kindWeight pc.kind)).sum

def handWeight (pos : Position) : Nat :=
  ([Color.black, Color.white].map (fun c =>
    (handKindsOrder.map (fun k => handGet (pos.hand c) k * kindWeight k)).sum)).sum

def totalWeight (pos : Position) : Nat := boardWeight pos + handWeight pos

def isKingOf (pos : Position) (c : Color) (i : Nat) : Bool :=
  match boardGet pos.board i with
  | some pc => pc.kind == strOf "K" && pc.color == c
  | none => false

def kingCount (pos : Position) (c : Color) : Nat :=
  (List.range 81).countP (isKingOf pos c)

def boardKindCount (pos : Position) (k : Str) : Nat :=
  (List.range 81).countP (fun i =>
    match boardGet pos.board i with
    | some pc => pc.kind == k
    | none => false)

/-- Total units of a kind over board and both hands (promotion ignored:
a promoted Pawn still has kind P). -/
def pieceTotal (pos : Position) (k : Str) : Nat :=
  boardKindCount pos k + handGet pos.handB k + handGet pos.handW k

def validKinds : List Str :=
  [strOf "K", strOf "P", strOf "L", strOf "N", strOf "S", strOf "G", strOf "B", strOf "R"]

/-- Two kings on otherwise empty board, 54 Pawns in Black's hand: the
material is far from the standard set yet weighs exactly 162, so it packs
to exactly 256 bits. -/
def pawns54Pos : Position :=
  ⟨(some ⟨strOf "K", Color.black, false⟩) :: (some ⟨strOf "K", Color.white, false⟩) ::
     List.replicate 79 none,
   { Hand.empty with cntP := 54 }, Hand.empty, Color.black⟩

def stdPos : Position :=
  match parseSFENPosition standardSFEN with
  | .ok p => p
  | .error _ => ⟨emptyBoard, Hand.empty, Hand.empty, Color.black⟩

/-- The standard position with the Black King (index 76) marked promoted:
`PackPosition256` accepts it but drops the flag. -/
def stdPromotedKingPos : Position :=
  setBoardIdx stdPos 76 (some ⟨strOf "K", Color.black, true⟩)

/-- Per-cell weight used by the bit-length accounting: empty cells weigh
0 on top of their 1-bit code, occupied cells weigh `kindWeight`. -/
def cellWeight (cell : Option Piece) : Nat :=
  match cell with
  | none => 0
  | some pc => kindWeight pc.kind

/-- One colour's block of `handEntries`. -/
def entriesOf (h : Hand) (c : Color) : List (Str × Color) :=
  handKindsOrder.flatMap (fun k => List.replicate (handGet h k) (k, c))

/-- Decidable form of the material side condition: every board piece is
one of the eight kinds the program writes. -/
def boardKindsValid (pos : Position) : Bool :=
  (List.range 81).all (fun i =>
    match boardGet pos.board i with
    | none => true
    | some pc => decide (pc.kind ∈ validKinds))

/-- Decidable description of the positions carrying no information the
256-bit format can drop: an 81-cell board, every piece one of the eight
kinds with the promotion flag off on the two kinds that get no promotion
bit (King and Gold), and no captured-King counter in either hand (hand
entries are emitted for the seven droppable kinds only). -/
def pack256Lossless (pos : Position) : Bool :=
  (pos.board.length == 81) &&
  ((List.range 81).all (fun i =>
    match boardGet pos.board i with
    | none => true
    | some pc =>
        pc.kind == strOf "P" || pc.kind == strOf "L" || pc.kind == strOf "N" ||
        pc.kind == strOf "S" || pc.kind == strOf "B" || pc.kind == strOf "R" ||
        ((pc.kind == strOf "K" || pc.kind == strOf "G") && !pc.promoted))) &&
  (pos.handB.cntK == 0) && (pos.handW.cntK == 0)

/-- The composition the round-trip law talks about: pack, unpack, print
at move number `n`. -/
def roundTripSFEN (pos : Position) (n : Nat) : Except String Str :=
  match packPosition256 pos with
  | .error e => .error e
  | .ok pk =>
      match unpackPosition256 pk with
      | .error e => .error e
      | .ok q => .ok (toSFEN q n)

/-- Effect of the unpack board loop on the accumulated position, stated
against the source position being packed: every scanned square receives
the source cell when that cell is occupied and is left alone when it is
empty. -/
def applyCells (pos : Position) (L : List Nat) (q : Position) : Position :=
  L.foldl (fun q sq =>
    match boardGet pos.board sq with
    | none => q
    | some pc => setBoardIdx q sq (some pc)) q

/-- Effect of the unpack hand loop: one `handAdd` per decoded entry. -/
def applyEntries (q : Position) (E : List (Str × Color)) : Position :=
  E.foldl (fun q e => setHand q e.2 (handAdd (q.hand e.2) e.1 1)) q

/-!
Theorems.
-/

theorem parseResult_of_terminal (lines : List KifLine) (tok : Str) (ply : Nat)
    (h : findTerminalMove lines = (tok, ply)) (hne : tok ≠ []) :
    parseResult lines = resultFromTerminal tok ply := by
  unfold parseResult
  rw [h]
  simp [hne]

/-- C2: for a record whose terminal token is the checkmate (詰み) or
illegal-move-win (反則勝ち) token, `parseResult` reports the winner by the
parity of the terminal line's ply count (odd ply means a sente/Black win);
for a record whose terminal token is resignation (投了), time-up
(切れ負け) or illegal-move-loss (反則負け), it reports the winner by the
parity of ply + 1, i.e. the side other than the failing mover wins. -/
theorem c2_terminal_parity (lines : List KifLine) (tok : Str) (ply : Nat)
    (h : findTerminalMove lines = (tok, ply)) :
    ((tok = strOf "詰み" ∨ tok = strOf "反則勝ち") →
      (parseResult lines).1 = (if ply % 2 = 1 then "sente_win" else "gote_win")) ∧
    ((tok = strOf "投了" ∨ tok = strOf "切れ負け" ∨ tok = strOf "反則負け") →
      (parseResult lines).1 = (if (ply + 1) % 2 = 1 then "sente_win" else "gote_win")) := by
  constructor
  · rintro (rfl | rfl) <;>
      rw [parseResult_of_terminal lines _ ply h (by decide)] <;> rfl
  · rintro (rfl | rfl | rfl) <;>
      rw [parseResult_of_terminal lines _ ply h (by decide)] <;> rfl

theorem c2_terminal_parity_witness :
    findTerminalMove [⟨false, strOf "詰み"⟩] = (strOf "詰み", 1) ∧
    (((strOf "詰み" = strOf "詰み" ∨ strOf "詰み" = strOf "反則勝ち") →
      (parseResult [⟨false, strOf "詰み"⟩]).1 = (if 1 % 2 = 1 then "sente_win" else "gote_win")) ∧
     ((strOf "詰み" = strOf "投了" ∨ strOf "詰み" = strOf "切れ負け" ∨ strOf "詰み" = strOf "反則負け") →
      (parseResult [⟨false, strOf "詰み"⟩]).1 = (if (1 + 1) % 2 = 1 then "sente_win" else "gote_win"))) :=
  ⟨by decide, c2_terminal_parity _ _ _ (by decide)⟩

/-- C3: the decoded record's foul-end flag (the `isFoulEnd` value stored
in `Board.foulEnd` by `BoardFromKIF` and consulted by `BuildGameRecord`)
is true exactly when the record's terminal token is 反則勝ち or 反則負け,
and when it is true `BuildGameRecord` drops the last parsed move before
applying and scoring. -/
theorem c3_foul_end (lines : List KifLine) :
    (isFoulEnd lines = true ↔
      ((findTerminalMove lines).1 = strOf "反則勝ち" ∨
       (findTerminalMove lines).1 = strOf "反則負け")) ∧
    (∀ moves, parseKIFMoves lines = .ok moves → moves ≠ [] →
      isFoulEnd lines = true → buildGameRecordMoves lines = .ok moves.dropLast) := by
  constructor
  · simp [isFoulEnd]
  · intro moves hp hne hf
    unfold buildGameRecordMoves
    rw [hp]
    simp [hne, hf]

theorem c3_foul_end_witness :
    parseKIFMoves [⟨true, strOf "７六歩(77)"⟩, ⟨false, strOf "反則負け"⟩] = .ok [strOf "7g7f"] ∧
    ([strOf "7g7f"] : List Str) ≠ [] ∧
    isFoulEnd [⟨true, strOf "７六歩(77)"⟩, ⟨false, strOf "反則負け"⟩] = true ∧
    buildGameRecordMoves [⟨true, strOf "７六歩(77)"⟩, ⟨false, strOf "反則負け"⟩] =
      .ok ([strOf "7g7f"] : List Str).dropLast :=
  ⟨by decide, by decide, by decide,
   (c3_foul_end _).2 _ (by decide) (by decide) (by decide)⟩

theorem applyMoveTail_error (pcur : Position) (piece : Piece) (mv : UsiMove) (e : String)
    (h : (applyMoveSt.applyMoveTail pcur piece mv).1 = some e) :
    e = "cannot promote king or gold" := by
  unfold applyMoveSt.applyMoveTail at h
  split_ifs at h <;> simp_all

/-- C10: whenever `ApplyMove` returns an error other than the
promote-king-or-gold rejection — in particular for the empty-hand and
occupied-destination drop errors and for the no-piece-at-source,
wrong-mover-color and capture-own-piece board errors — the Position is
left completely unchanged: board, both hands, and side-to-move. -/
theorem c10_apply_error_unchanged (p : Position) (m : Str) (e : String)
    (h : (applyMoveGo p m).1 = some e)
    (hne : e ≠ "cannot promote king or gold") :
    (applyMoveGo p m).2 = p := by
  unfold applyMoveGo at h ⊢
  cases hpm : parseUSIMove m with
  | error e' => simp [hpm]
  | ok mv =>
    simp only [hpm] at h ⊢
    by_cases hd : mv.isDrop = true
    · rw [if_pos hd] at h ⊢
      unfold applyDropSt at h ⊢
      by_cases h1 : handGet (p.hand p.turn) mv.piece = 0
      · simp [h1]
      · by_cases h2 : (pieceAt p mv.toSq).isSome = true
        · simp [h1, h2]
        · simp [h1, h2] at h
    · rw [if_neg hd] at h ⊢
      unfold applyMoveSt at h ⊢
      cases hpa : pieceAt p mv.fromSq with
      | none => simp [hpa]
      | some piece =>
        simp only [hpa] at h ⊢
        by_cases hc : piece.color ≠ p.turn
        · simp [hc]
        · rw [if_neg hc] at h ⊢
          cases hcap : pieceAt p mv.toSq with
          | none =>
            simp only [hcap] at h
            exact absurd (applyMoveTail_error _ _ _ _ h) hne
          | some captured =>
            simp only [hcap] at h ⊢
            by_cases hoc : captured.color = p.turn
            · simp [hoc]
            · rw [if_neg hoc] at h
              exact absurd (applyMoveTail_error _ _ _ _ h) hne

theorem c10_apply_error_unchanged_witness :
    (applyMoveGo ⟨emptyBoard, Hand.empty, Hand.empty, Color.black⟩ (strOf "P*5e")).1 =
      some "no P in hand" ∧
    ("no P in hand" ≠ "cannot promote king or gold") ∧
    (applyMoveGo ⟨emptyBoard, Hand.empty, Hand.empty, Color.black⟩ (strOf "P*5e")).2 =
      ⟨emptyBoard, Hand.empty, Hand.empty, Color.black⟩ :=
  ⟨by decide, by decide, c10_apply_error_unchanged _ _ "no P in hand" (by decide) (by decide)⟩

/-- C8: a KIF record containing a handicap header line (手合割) marked
even (平手) decodes to the fixed standard initial layout, whose canonical
text at move number 1 is exactly the standard SFEN string. -/
theorem c8_hirate_initial (lines : List Str)
    (h : ∃ l ∈ lines, isHirateLine l = true) :
    initialPositionFromKIF lines = parseSFENPosition standardSFEN ∧
    (initialPositionFromKIF lines).toOption.map (fun pos => String.mk (toSFEN pos 1)) =
      some "lnsgkgsnl/1r5b1/ppppppppp/9/9/9/PPPPPPPPP/1B5R1/LNSGKGSNL b - 1" := by
  obtain ⟨l, hl, h1⟩ := h
  have hany : lines.any isHirateLine = true := List.any_eq_true.mpr ⟨l, hl, h1⟩
  have hrw : initialPositionFromKIF lines = parseSFENPosition standardSFEN := by
    unfold initialPositionFromKIF
    rw [hany]
    rfl
  refine ⟨hrw, ?_⟩
  rw [hrw]
  decide

theorem c8_hirate_initial_witness :
    (∃ l ∈ ([strOf "手合割：平手"] : List (List Char)), isHirateLine l = true) ∧
    (initialPositionFromKIF [strOf "手合割：平手"] = parseSFENPosition standardSFEN ∧
     (initialPositionFromKIF [strOf "手合割：平手"]).toOption.map
        (fun pos => String.mk (toSFEN pos 1)) =
      some "lnsgkgsnl/1r5b1/ppppppppp/9/9/9/PPPPPPPPP/1B5R1/LNSGKGSNL b - 1") :=
  ⟨⟨strOf "手合割：平手", by simp, by decide⟩,
   c8_hirate_initial _ ⟨strOf "手合割：平手", by simp, by decide⟩⟩

theorem startsWithSub_append_right (s t p : Str) (h : startsWithSub s p = true) :
    startsWithSub (s ++ t) p = true := by
  induction s generalizing p with
  | nil =>
      cases p with
      | nil => simp [startsWithSub]
      | cons c cs => simp [startsWithSub] at h
  | cons c cs ih =>
      cases p with
      | nil => simp [startsWithSub]
      | cons d ds =>
          simp only [startsWithSub, Bool.and_eq_true] at h ⊢
          exact ⟨h.1, ih ds h.2⟩

theorem startsWithSub_trans (s p q : Str) (h1 : startsWithSub s p = true)
    (h2 : startsWithSub p q = true) : startsWithSub s q = true := by
  induction s generalizing p q with
  | nil =>
      cases p with
      | nil => cases q with
        | nil => simp [startsWithSub]
        | cons _ _ => simp [startsWithSub] at h2
      | cons _ _ => simp [startsWithSub] at h1
  | cons c cs ih =>
      cases q with
      | nil => simp [startsWithSub]
      | cons d ds =>
          cases p with
          | nil => simp [startsWithSub] at h2
          | cons e es =>
              simp only [startsWithSub, Bool.and_eq_true, beq_iff_eq] at h1 h2 ⊢
              exact ⟨h1.1.trans h2.1, ih es ds h1.2 h2.2⟩

theorem containsSub_nil_pat (s : Str) : containsSub s [] = true := by
  cases s <;> simp [containsSub, startsWithSub]

theorem containsSub_of_startsWithSub (s p : Str) (h : startsWithSub s p = true) :
    containsSub s p = true := by
  cases s with
  | nil =>
      cases p with
      | nil => simp [containsSub]
      | cons _ _ => simp [startsWithSub] at h
  | cons c cs => simp [containsSub, h]

theorem containsSub_cons (c : Char) (s p : Str) (h : containsSub s p = true) :
    containsSub (c :: s) p = true := by
  simp [containsSub, h]

theorem containsSub_append_right (s t p : Str) (h : containsSub t p = true) :
    containsSub (s ++ t) p = true := by
  induction s with
  | nil => simpa using h
  | cons c cs ih => exact containsSub_cons c _ p ih

theorem containsSub_append_left (s t p : Str) (h : containsSub s p = true) :
    containsSub (s ++ t) p = true := by
  induction s with
  | nil =>
      cases p with
      | nil => exact containsSub_nil_pat t
      | cons _ _ => simp [containsSub] at h
  | cons c cs ih =>
      simp only [containsSub, Bool.or_eq_true] at h
      rcases h with h | h
      · simp only [List.cons_append, containsSub, Bool.or_eq_true]
        exact Or.inl (startsWithSub_append_right _ t _ h)
      · simp only [List.cons_append, containsSub, Bool.or_eq_true]
        exact Or.inr (ih h)

theorem goTrim_infix (s : Str) : ∃ pre suf, s = pre ++ (goTrim s ++ suf) := by
  refine ⟨s.takeWhile isSpaceChar,
    ((s.dropWhile isSpaceChar).reverse.takeWhile isSpaceChar).reverse, ?_⟩
  unfold goTrim
  have h1 : s = s.takeWhile isSpaceChar ++ s.dropWhile isSpaceChar :=
    (List.takeWhile_append_dropWhile ..).symm
  have h2 : (s.dropWhile isSpaceChar).reverse =
      (s.dropWhile isSpaceChar).reverse.takeWhile isSpaceChar ++
      (s.dropWhile isSpaceChar).reverse.dropWhile isSpaceChar :=
    (List.takeWhile_append_dropWhile ..).symm
  have h3 : s.dropWhile isSpaceChar =
      ((s.dropWhile isSpaceChar).reverse.dropWhile isSpaceChar).reverse ++
      ((s.dropWhile isSpaceChar).reverse.takeWhile isSpaceChar).reverse := by
    have := congrArg List.reverse h2
    rwa [List.reverse_reverse, List.reverse_append] at this
  calc s = s.takeWhile isSpaceChar ++ s.dropWhile isSpaceChar := h1
    _ = s.takeWhile isSpaceChar ++
        (((s.dropWhile isSpaceChar).reverse.dropWhile isSpaceChar).reverse ++
         ((s.dropWhile isSpaceChar).reverse.takeWhile isSpaceChar).reverse) := by rw [← h3]

theorem containsSub_of_goTrim (s p : Str) (h : containsSub (goTrim s) p = true) :
    containsSub s p = true := by
  obtain ⟨pre, suf, hs⟩ := goTrim_infix s
  rw [hs]
  exact containsSub_append_right pre _ p (containsSub_append_left _ suf p h)

/-- C5 counterexample: the token ５五成銀打 carries the drop marker and
its piece text is the pre-promoted compound glyph 成銀, yet decoding does
not fail with the cannot-drop-promoted error: the 成 of the compound is
consumed as a promotion marker, so a plain silver drop S*5e is produced.
The claim "decoding fails with the cannot-drop-promoted error whenever the
token's piece is promoted (including pre-promoted compound glyphs such as
成銀...)" is therefore false as stated. -/
theorem c5_counterexample :
    parseKIFMoveToken (strOf "５五成銀打") none =
      .ok (strOf "S*5e", some ⟨5, 5⟩, false) := by decide

/-- C5 amended: for a token carrying the drop marker, decoding fails with
the cannot-drop-promoted error exactly when the piece text remaining after
marker removal parses to a promoted piece, which happens exactly for the
single-glyph pre-promoted pieces と, 馬, 龍, 竜 — not for compound glyphs
such as 成銀, whose 成 is consumed as a promotion marker beforehand;
otherwise a Drop move of the non-promoted piece kind at the destination is
produced. -/
theorem c5_amended_drop (work0 : Str) (dest : Square)
    (hd : bodyIsDrop work0 = true) :
    (∀ letter fp, parsePiece (bodyWork4 work0) = .ok (letter, true, fp) →
      parseKIFMoveBody work0 dest = .error "cannot drop promoted piece") ∧
    (∀ letter fp, parsePiece (bodyWork4 work0) = .ok (letter, false, fp) →
      parseKIFMoveBody work0 dest = .ok (letter ++ '*' :: formatSquare dest, some dest, false)) ∧
    (∀ letter fp, parsePiece (bodyWork4 work0) = .ok (letter, true, fp) →
      (startsWithSub (goTrim (bodyWork4 work0)) (strOf "と") = true ∨
       startsWithSub (goTrim (bodyWork4 work0)) (strOf "馬") = true ∨
       startsWithSub (goTrim (bodyWork4 work0)) (strOf "龍") = true ∨
       startsWithSub (goTrim (bodyWork4 work0)) (strOf "竜") = true)) := by
  refine ⟨?_, ?_, ?_⟩
  · intro letter fp hpp
    unfold parseKIFMoveBody
    rw [hpp, hd]
    rfl
  · intro letter fp hpp
    unfold parseKIFMoveBody
    rw [hpp, hd]
    rfl
  · intro letter fp hpp
    unfold parsePiece at hpp
    cases hfind : pieceDefs.find? (fun d => startsWithSub (goTrim (bodyWork4 work0)) d.name) with
    | none => rw [hfind] at hpp; exact absurd hpp (by simp)
    | some d =>
        rw [hfind] at hpp
        dsimp only at hpp
        have hprom : d.promoted = true := congrArg (fun x => x.2.1) (Except.ok.inj hpp)
        have hpred := List.find?_some hfind
        have hmem := List.mem_of_find?_eq_some hfind
        simp only [pieceDefs, List.mem_cons, List.not_mem_nil, or_false] at hmem
        rcases hmem with rfl | rfl | rfl | rfl | rfl | rfl | rfl | rfl | rfl | rfl | rfl | rfl |
          rfl | rfl | rfl | rfl | rfl
        all_goals dsimp only at hpred hprom
        all_goals first
          | (exact absurd hprom (by decide))
          | tauto

theorem c5_amended_drop_witness :
    bodyIsDrop (strOf "馬打") = true ∧
    parsePiece (bodyWork4 (strOf "馬打")) = .ok (strOf "B", true, false) ∧
    parseKIFMoveBody (strOf "馬打") ⟨5, 5⟩ = .error "cannot drop promoted piece" :=
  ⟨by decide, by decide,
   (c5_amended_drop (strOf "馬打") ⟨5, 5⟩ (by decide)).1 (strOf "B") false (by decide)⟩

/-- C4: promotion-flag precedence of the produced normalized move, for a
board (non-drop) move token: a no-promotion marker 不成 always wins and
forces the flag off; otherwise an explicit 成 marker in the piece text
(which includes the 成 of a pre-promoted compound glyph) forces the flag
on; in particular a pre-promoted compound glyph (成銀, 成桂, 成香, 成歩)
yields a promoted move whenever no 不成 marker is present. -/
theorem c4_promotion_precedence (work0 : Str) (dest : Square) (usi : Str)
    (d : Option Square) (isEnd : Bool)
    (hok : parseKIFMoveBody work0 dest = .ok (usi, d, isEnd))
    (hnd : bodyIsDrop work0 = false) :
    (bodyNoPromote work0 = true →
      ∃ ff fr, parseFromSquare work0 = some (ff, fr) ∧
        usi = formatSquare ⟨ff, fr⟩ ++ formatSquare dest) ∧
    (bodyNoPromote work0 = false → bodyHasPromoteMark work0 = true →
      ∃ ff fr, parseFromSquare work0 = some (ff, fr) ∧
        usi = formatSquare ⟨ff, fr⟩ ++ (formatSquare dest ++ strOf "+")) ∧
    ((∃ g ∈ [strOf "成銀", strOf "成桂", strOf "成香", strOf "成歩"],
        startsWithSub (goTrim (bodyWork2 work0)) g = true) →
      bodyNoPromote work0 = false →
      ∃ ff fr, parseFromSquare work0 = some (ff, fr) ∧
        usi = formatSquare ⟨ff, fr⟩ ++ (formatSquare dest ++ strOf "+")) := by
  unfold parseKIFMoveBody at hok
  cases hpp : parsePiece (bodyWork4 work0) with
  | error e => rw [hpp] at hok; exact absurd hok (by simp)
  | ok res =>
      obtain ⟨letter, pp, fp⟩ := res
      rw [hpp, hnd] at hok
      simp only [Bool.false_eq_true, if_false] at hok
      cases hfrom : parseFromSquare work0 with
      | none => rw [hfrom] at hok; exact absurd hok (by simp)
      | some ffr =>
          obtain ⟨ff, fr⟩ := ffr
          rw [hfrom] at hok
          dsimp only at hok
          have hmark : ∀ g, g ∈ [strOf "成銀", strOf "成桂", strOf "成香", strOf "成歩"] →
              startsWithSub (goTrim (bodyWork2 work0)) g = true →
              bodyHasPromoteMark work0 = true := by
            intro g hg hsw
            have hseg : startsWithSub (goTrim (bodyWork2 work0)) (strOf "成") = true := by
              refine startsWithSub_trans _ g _ hsw ?_
              fin_cases hg <;> decide
            unfold bodyHasPromoteMark
            exact containsSub_of_goTrim _ _
              (containsSub_of_startsWithSub _ _ hseg)
          refine ⟨?_, ?_, ?_⟩
          · intro hnp
            rw [hnp] at hok
            simp only [Bool.not_true, Bool.and_false, Bool.false_eq_true, if_false,
              Except.ok.injEq, Prod.mk.injEq] at hok
            exact ⟨ff, fr, rfl, hok.1.symm⟩
          · intro hnp hm
            rw [hnp, hm] at hok
            simp only [Bool.not_false, Bool.true_or, Bool.true_and, if_true,
              Except.ok.injEq, Prod.mk.injEq] at hok
            exact ⟨ff, fr, rfl, by rw [← hok.1, List.append_assoc]⟩
          · rintro ⟨g, hg, hsw⟩ hnp
            have hm := hmark g hg hsw
            rw [hnp, hm] at hok
            simp only [Bool.not_false, Bool.true_or, Bool.true_and, if_true,
              Except.ok.injEq, Prod.mk.injEq] at hok
            exact ⟨ff, fr, rfl, by rw [← hok.1, List.append_assoc]⟩

theorem c4_promotion_precedence_witness :
    parseKIFMoveBody (strOf "成銀(44)") ⟨5, 5⟩ =
      .ok (strOf "4d5e+", some ⟨5, 5⟩, false) ∧
    bodyIsDrop (strOf "成銀(44)") = false ∧
    ((∃ g ∈ [strOf "成銀", strOf "成桂", strOf "成香", strOf "成歩"],
        startsWithSub (goTrim (bodyWork2 (strOf "成銀(44)"))) g = true) →
      bodyNoPromote (strOf "成銀(44)") = false →
      ∃ ff fr, parseFromSquare (strOf "成銀(44)") = some (ff, fr) ∧
        strOf "4d5e+" = formatSquare ⟨ff, fr⟩ ++ (formatSquare ⟨5, 5⟩ ++ strOf "+")) :=
  ⟨by decide, by decide,
   (c4_promotion_precedence (strOf "成銀(44)") ⟨5, 5⟩ (strOf "4d5e+")
      (some ⟨5, 5⟩) false (by decide) (by decide)).2.2⟩

theorem dropWhile_idem (p : Char → Bool) (l : Str) :
    List.dropWhile p (List.dropWhile p l) = List.dropWhile p l := by
  induction l with
  | nil => rfl
  | cons c t ih =>
      rw [List.dropWhile_cons]
      by_cases hc : p c = true
      · rw [if_pos hc]; exact ih
      · rw [if_neg hc, List.dropWhile_cons, if_neg hc]

theorem dropWhile_head_false (p : Char → Bool) (l : Str) (c : Char) (t : Str)
    (h : List.dropWhile p l = c :: t) : p c = false := by
  induction l with
  | nil => simp at h
  | cons a as ih =>
      rw [List.dropWhile_cons] at h
      by_cases ha : p a = true
      · rw [if_pos ha] at h; exact ih h
      · rw [if_neg ha] at h
        cases h
        simpa using ha

theorem goTrim_idem (s : Str) : goTrim (goTrim s) = goTrim s := by
  have hdef : goTrim s = ((s.dropWhile isSpaceChar).reverse.dropWhile isSpaceChar).reverse := rfl
  have hrev : (goTrim s).reverse = (s.dropWhile isSpaceChar).reverse.dropWhile isSpaceChar := by
    rw [hdef, List.reverse_reverse]
  have hdropRev : List.dropWhile isSpaceChar (goTrim s).reverse = (goTrim s).reverse := by
    rw [hrev]; exact dropWhile_idem ..
  have hdrop : List.dropWhile isSpaceChar (goTrim s) = goTrim s := by
    cases hu : goTrim s with
    | nil => rfl
    | cons c u =>
        have h2 : (s.dropWhile isSpaceChar).reverse =
            (s.dropWhile isSpaceChar).reverse.takeWhile isSpaceChar ++
            (s.dropWhile isSpaceChar).reverse.dropWhile isSpaceChar :=
          (List.takeWhile_append_dropWhile ..).symm
        have h3 := congrArg List.reverse h2
        rw [List.reverse_reverse, List.reverse_append] at h3
        rw [← hdef, hu] at h3
        have hc : isSpaceChar c = false :=
          dropWhile_head_false isSpaceChar s c _ (h3.trans (List.cons_append _ _ _))
        rw [List.dropWhile_cons, if_neg (by simp [hc])]
  calc goTrim (goTrim s)
      = (((goTrim s).dropWhile isSpaceChar).reverse.dropWhile isSpaceChar).reverse := rfl
    _ = ((goTrim s).reverse.dropWhile isSpaceChar).reverse := by rw [hdrop]
    _ = (goTrim s).reverse.reverse := by rw [hdropRev]
    _ = goTrim s := List.reverse_reverse _

theorem append_head_ne (p : String) (c : Char) (hp : p.data.head? = some c)
    (t : String) (ht : t.data.head? ≠ some c) : ∀ s : String, p ++ s ≠ t := by
  intro s h
  obtain ⟨pd⟩ := p
  obtain ⟨sd⟩ := s
  have hd : (pd ++ sd).head? = t.data.head? := congrArg (fun x => x.data.head?) h
  cases pd with
  | nil => simp at hp
  | cons a as =>
      simp only [List.head?_cons] at hp
      simp only [List.cons_append, List.head?_cons] at hd
      exact ht (hd ▸ hp ▸ rfl)

theorem body_ok_shape (w : Str) (dest : Square) (usi : Str) (d : Option Square) (e : Bool)
    (h : parseKIFMoveBody w dest = .ok (usi, d, e)) : d = some dest ∧ e = false := by
  unfold parseKIFMoveBody at h
  cases hpp : parsePiece (bodyWork4 w) with
  | error err => rw [hpp] at h; exact absurd h (by simp)
  | ok res =>
      obtain ⟨letter, pp, fp⟩ := res
      rw [hpp] at h
      dsimp only at h
      by_cases hd : bodyIsDrop w = true
      · rw [hd] at h
        simp only [if_true] at h
        by_cases hP : pp = true
        · rw [hP] at h; simp at h
        · simp only [Bool.not_eq_true] at hP
          rw [hP] at h
          simp only [Bool.false_eq_true, if_false] at h
          obtain ⟨h1, h2, h3⟩ := by
            simpa only [Except.ok.injEq, Prod.mk.injEq] using h
          exact ⟨h2.symm, h3.symm⟩
      · simp only [Bool.not_eq_true] at hd
        rw [hd] at h
        simp only [Bool.false_eq_true, if_false] at h
        cases hfrom : parseFromSquare w with
        | none => rw [hfrom] at h; exact absurd h (by simp)
        | some ffr =>
            rw [hfrom] at h
            dsimp only at h
            obtain ⟨h1, h2, h3⟩ := by
              simpa only [Except.ok.injEq, Prod.mk.injEq] using h
            exact ⟨h2.symm, h3.symm⟩

theorem body_error_shape (w : Str) (dest : Square) (e : String)
    (h : parseKIFMoveBody w dest = .error e) :
    e ≠ "same-square move without previous destination" := by
  unfold parseKIFMoveBody at h
  cases hpp : parsePiece (bodyWork4 w) with
  | error err =>
      rw [hpp] at h
      unfold parsePiece at hpp
      cases hfind : pieceDefs.find? (fun d => startsWithSub (goTrim (bodyWork4 w)) d.name) with
      | some d => rw [hfind] at hpp; exact absurd hpp (by simp)
      | none =>
          rw [hfind] at hpp
          have he : ("unknown piece in " ++ String.mk (bodyWork4 w)) = err := by
            simpa using hpp
          have he2 : err = e := by simpa using h
          rw [← he2, ← he]
          exact append_head_ne _ 'u' (by decide) _ (by decide) _
  | ok res =>
      obtain ⟨letter, pp, fp⟩ := res
      rw [hpp] at h
      dsimp only at h
      by_cases hd : bodyIsDrop w = true
      · rw [hd] at h
        simp only [if_true] at h
        by_cases hP : pp = true
        · rw [hP] at h
          simp only [if_true] at h
          have he : "cannot drop promoted piece" = e := by simpa using h
          rw [← he]; decide
        · simp only [Bool.not_eq_true] at hP
          rw [hP] at h
          simp at h
      · simp only [Bool.not_eq_true] at hd
        rw [hd] at h
        simp only [Bool.false_eq_true, if_false] at h
        cases hfrom : parseFromSquare w with
        | none =>
            rw [hfrom] at h
            have he : "missing source square" = e := by simpa using h
            rw [← he]; decide
        | some ffr =>
            rw [hfrom] at h
            dsimp only at h
            exact absurd h (by simp)

theorem token_missing_prior_iff (token : Str) (prev : Option Square) :
    parseKIFMoveToken token prev = .error "same-square move without previous destination" ↔
    (isTerminalMove token = false ∧
     startsWithSub (goTrim token) (strOf "同") = true ∧ prev = none) := by
  unfold parseKIFMoveToken
  by_cases ht : isTerminalMove token = true
  · rw [ht]
    simp
  · simp only [Bool.not_eq_true] at ht
    rw [ht]
    simp only [Bool.false_eq_true, if_false]
    by_cases hsw : startsWithSub (goTrim token) (strOf "同") = true
    · rw [hsw]
      simp only [if_true]
      cases prev with
      | none => simp
      | some d =>
          simp only [reduceCtorEq, and_false, iff_false]
          intro h
          exact body_error_shape _ _ _ h rfl
  -- not a 同 token: the destination errors and body errors never produce the message
    · simp only [Bool.not_eq_true] at hsw
      rw [hsw]
      simp only [Bool.false_eq_true, if_false, and_false, false_and, iff_false]
      cases hg : goTrim token with
      | nil =>
          intro h
          have hmsg : ("invalid move token: " ++ String.mk token) =
              "same-square move without previous destination" := by simpa using h
          exact append_head_ne _ 'i' (by decide) _ (by decide) _ hmsg
      | cons c1 rest1 =>
          cases rest1 with
          | nil =>
              intro h
              have hmsg : ("invalid move token: " ++ String.mk token) =
                  "same-square move without previous destination" := by simpa using h
              exact append_head_ne _ 'i' (by decide) _ (by decide) _ hmsg
          | cons c2 rest2 =>
              intro h
              cases hf : parseFileRune c1 with
              | none =>
                  simp only [hf] at h
                  exact append_head_ne "invalid destination file in " 'i' (by decide)
                    "same-square move without previous destination" (by decide) _
                    (by simpa using h)
              | some f =>
                  cases hr : parseRankRune c2 with
                  | none =>
                      simp only [hf, hr] at h
                      exact append_head_ne "invalid destination rank in " 'i' (by decide)
                        "same-square move without previous destination" (by decide) _
                        (by simpa using h)
                  | some r =>
                      simp only [hf, hr] at h
                      exact body_error_shape _ _ _ h rfl

theorem token_ok_false_dest (token : Str) (prev : Option Square) (usi : Str)
    (d : Option Square) (h : parseKIFMoveToken token prev = .ok (usi, d, false)) :
    ∃ dd, d = some dd := by
  unfold parseKIFMoveToken at h
  by_cases ht : isTerminalMove token = true
  · rw [ht] at h; simp at h
  · simp only [Bool.not_eq_true] at ht
    rw [ht] at h
    simp only [Bool.false_eq_true, if_false] at h
    by_cases hsw : startsWithSub (goTrim token) (strOf "同") = true
    · rw [hsw] at h
      simp only [if_true] at h
      cases prev with
      | none => simp at h
      | some dd => exact ⟨_, (body_ok_shape _ _ _ _ _ h).1⟩
    · simp only [Bool.not_eq_true] at hsw
      rw [hsw] at h
      simp only [Bool.false_eq_true, if_false] at h
      cases hg : goTrim token with
      | nil => rw [hg] at h; simp at h
      | cons c1 rest1 =>
          rw [hg] at h
          cases rest1 with
          | nil => simp at h
          | cons c2 rest2 =>
              dsimp only at h
              cases hf : parseFileRune c1 with
              | none => simp only [hf] at h; exact absurd h (by simp)
              | some f =>
                  cases hr : parseRankRune c2 with
                  | none => simp only [hf, hr] at h; exact absurd h (by simp)
                  | some r =>
                      simp only [hf, hr] at h
                      exact ⟨_, (body_ok_shape _ _ _ _ _ h).1⟩

theorem movesGo_some_ne_missing (lines : List KifLine) :
    ∀ dd, parseKIFMovesGo lines (some dd) ≠
      .error "same-square move without previous destination" := by
  induction lines with
  | nil => intro dd; simp [parseKIFMovesGo]
  | cons l rest ih =>
      intro dd
      unfold parseKIFMovesGo
      by_cases hcl : l.clocked = true
      · rw [hcl]
        simp only [if_true]
        by_cases hemp : goTrim l.text = []
        · rw [if_pos hemp]; exact ih dd
        · rw [if_neg hemp]
          cases hp : parseKIFMoveToken (goTrim l.text) (some dd) with
          | error e =>
              intro hc
              have he : e = "same-square move without previous destination" := by
                simpa using hc
              rw [he] at hp
              have := (token_missing_prior_iff _ _).mp hp
              exact absurd this.2.2 (by simp)
          | ok res =>
              obtain ⟨usi, d, isEnd⟩ := res
              cases isEnd with
              | true => simp
              | false =>
                  obtain ⟨dd2, rfl⟩ := token_ok_false_dest _ _ _ _ hp
                  intro hc
                  dsimp only at hc
                  cases hrec : parseKIFMovesGo rest (some dd2) with
                  | error e =>
                      rw [hrec] at hc
                      have he : e = "same-square move without previous destination" := by
                        simpa using hc
                      exact ih dd2 (he ▸ hrec)
                  | ok ms =>
                      rw [hrec] at hc
                      simp at hc
      · simp only [Bool.not_eq_true] at hcl
        rw [hcl]
        simp only [Bool.false_eq_true, if_false]
        exact ih dd

/-- C6: a move token beginning with the same-square marker 同 resolves to
the immediately preceding move's destination square, and decoding fails
with the missing-prior-destination error exactly when no prior move exists
in the record: at token level the error appears precisely when the
threaded previous destination is absent, and at record level
`parseKIFMoves` produces that error precisely when the first recognized,
non-terminal move line of the record is a 同 line. -/
theorem c6_same_square :
    (∀ token prev, startsWithSub (goTrim token) (strOf "同") = true →
      isTerminalMove token = false →
      ((parseKIFMoveToken token prev =
          .error "same-square move without previous destination" ↔ prev = none) ∧
       (∀ dd usi d' e, prev = some dd →
          parseKIFMoveToken token prev = .ok (usi, d', e) → d' = some dd))) ∧
    (∀ lines, parseKIFMoves lines =
        .error "same-square move without previous destination" ↔
      ∃ pre l rest, lines = pre ++ l :: rest ∧
        (∀ l' ∈ pre, l'.clocked = false ∨ goTrim l'.text = []) ∧
        l.clocked = true ∧ goTrim l.text ≠ [] ∧
        isTerminalMove (goTrim l.text) = false ∧
        startsWithSub (goTrim l.text) (strOf "同") = true) := by
  constructor
  · intro token prev hsw ht
    constructor
    · rw [token_missing_prior_iff]
      simp [hsw, ht]
    · intro dd usi d' e hprev hok
      rw [hprev] at hok
      unfold parseKIFMoveToken at hok
      rw [ht] at hok
      simp only [Bool.false_eq_true, if_false] at hok
      rw [hsw] at hok
      simp only [if_true] at hok
      rw [(body_ok_shape _ _ _ _ _ hok).1]
  · intro lines
    induction lines with
    | nil =>
        simp only [parseKIFMoves, parseKIFMovesGo]
        constructor
        · intro h; exact absurd h (by simp)
        · rintro ⟨pre, l, rest, hdec, _⟩
          exact absurd hdec (by simp [List.append_ne_nil_of_right_ne_nil])
    | cons l0 rest0 ih =>
        unfold parseKIFMoves at ih ⊢
        constructor
        · intro h
          unfold parseKIFMovesGo at h
          by_cases hcl : l0.clocked = true
          · rw [hcl] at h
            simp only [if_true] at h
            by_cases hemp : goTrim l0.text = []
            · rw [if_pos hemp] at h
              obtain ⟨pre, l, rest, hdec, hskip, hrest⟩ := ih.mp h
              refine ⟨l0 :: pre, l, rest, by rw [hdec, List.cons_append], ?_, hrest⟩
              intro l' hl'
              rcases List.mem_cons.mp hl' with rfl | hmem
              · exact Or.inr hemp
              · exact hskip l' hmem
            · rw [if_neg hemp] at h
              cases hp : parseKIFMoveToken (goTrim l0.text) none with
              | error e =>
                  rw [hp] at h
                  have he : e = "same-square move without previous destination" := by
                    simpa using h
                  rw [he] at hp
                  have hch := (token_missing_prior_iff _ _).mp hp
                  refine ⟨[], l0, rest0, rfl, by simp, hcl, hemp, hch.1, ?_⟩
                  have := hch.2.1
                  rwa [goTrim_idem] at this
              | ok res =>
                  obtain ⟨usi, d, isEnd⟩ := res
                  rw [hp] at h
                  cases isEnd with
                  | true => simp at h
                  | false =>
                      obtain ⟨dd2, rfl⟩ := token_ok_false_dest _ _ _ _ hp
                      dsimp only at h
                      cases hrec : parseKIFMovesGo rest0 (some dd2) with
                      | error e =>
                          rw [hrec] at h
                          have he : e = "same-square move without previous destination" := by
                            simpa using h
                          exact absurd (he ▸ hrec) (movesGo_some_ne_missing rest0 dd2)
                      | ok ms => rw [hrec] at h; simp at h
          · simp only [Bool.not_eq_true] at hcl
            rw [hcl] at h
            simp only [Bool.false_eq_true, if_false] at h
            obtain ⟨pre, l, rest, hdec, hskip, hrest⟩ := ih.mp h
            refine ⟨l0 :: pre, l, rest, by rw [hdec, List.cons_append], ?_, hrest⟩
            intro l' hl'
            rcases List.mem_cons.mp hl' with rfl | hmem
            · exact Or.inl hcl
            · exact hskip l' hmem
        · rintro ⟨pre, l, rest, hdec, hskip, hcl, hemp, hterm, hsw⟩
          cases pre with
          | nil =>
              simp only [List.nil_append] at hdec
              obtain ⟨h1, h2⟩ := List.cons_eq_cons.mp hdec
              subst h1
              subst h2
              unfold parseKIFMovesGo
              rw [hcl]
              simp only [if_true]
              rw [if_neg hemp]
              have herr : parseKIFMoveToken (goTrim l0.text) none =
                  .error "same-square move without previous destination" := by
                rw [token_missing_prior_iff]
                refine ⟨hterm, ?_, rfl⟩
                rw [goTrim_idem]; exact hsw
              rw [herr]
          | cons p0 pre' =>
              simp only [List.cons_append] at hdec
              obtain ⟨h1, h2⟩ := List.cons_eq_cons.mp hdec
              subst h1
              subst h2
              unfold parseKIFMovesGo
              have hskip0 := hskip l0 (by simp)
              have hrec : parseKIFMovesGo (pre' ++ l :: rest) none =
                  .error "same-square move without previous destination" := by
                apply ih.mpr
                exact ⟨pre', l, rest, rfl, fun l' hl' => hskip l' (by simp [hl']), hcl, hemp,
                  hterm, hsw⟩
              rcases hskip0 with hns | hemp0
              · rw [hns]
                simpa using hrec
              · by_cases hcl0 : l0.clocked = true
                · rw [hcl0]
                  simp only [if_true]
                  rw [if_pos hemp0]
                  exact hrec
                · simp only [Bool.not_eq_true] at hcl0
                  rw [hcl0]
                  simpa using hrec

theorem c6_same_square_witness :
    (startsWithSub (goTrim (strOf "同　金(58)")) (strOf "同") = true ∧
     isTerminalMove (strOf "同　金(58)") = false ∧
     parseKIFMoveToken (strOf "同　金(58)") none =
       .error "same-square move without previous destination") ∧
    parseKIFMoves [⟨true, strOf "同　金(58)"⟩] =
      .error "same-square move without previous destination" :=
  ⟨⟨by decide, by decide,
    ((c6_same_square.1 (strOf "同　金(58)") none (by decide) (by decide)).1).mpr rfl⟩,
   (c6_same_square.2 [⟨true, strOf "同　金(58)"⟩]).mpr
     ⟨[], ⟨true, strOf "同　金(58)"⟩, [], rfl, by simp, by decide, by decide, by decide,
      by decide⟩⟩

/-- C7 (the legality engine is modelled from the spec; its implementation
file is not under src/): for a Position whose non-moving side has a King
on the board, the legality predicate holds iff the side that is not to
move is not in check, i.e. the position is reported illegal exactly when
the King of the side not to move is attacked by some piece of the side to
move. -/
theorem c7_legality (pos : Position) (k : Nat)
    (hk : kingIdx pos pos.turn.other = some k) :
    (isLegalPosition pos = true ↔ isInCheck pos pos.turn.other = .ok false) ∧
    (isLegalPosition pos = true ↔
      ∀ i, i < 81 → ∀ pc, boardGet pos.board i = some pc → pc.color = pos.turn →
        attacksSq pos pc (idxFile i) (idxRank i) (idxFile k) (idxRank k) = false) := by
  have hoo : pos.turn.other.other = pos.turn := by cases pos.turn <;> rfl
  have hcheck : isInCheck pos pos.turn.other = .ok (anyAttacker pos pos.turn k) := by
    unfold isInCheck
    rw [hk, hoo]
  have hleg : isLegalPosition pos = !(anyAttacker pos pos.turn k) := by
    unfold isLegalPosition
    rw [hcheck]
  have hany : anyAttacker pos pos.turn k = false ↔
      (∀ i, i < 81 → ∀ pc, boardGet pos.board i = some pc → pc.color = pos.turn →
        attacksSq pos pc (idxFile i) (idxRank i) (idxFile k) (idxRank k) = false) := by
    unfold anyAttacker
    rw [← Bool.not_eq_true, List.any_eq_true]
    push_neg
    constructor
    · intro hall i hi pc hpc hcol
      have hnp := hall i (List.mem_range.mpr hi)
      cases hA : attacksSq pos pc (idxFile i) (idxRank i) (idxFile k) (idxRank k) with
      | false => rfl
      | true =>
          exfalso
          exact hnp (by simp [hpc, hcol, hA])
    · intro hall i hmem
      cases hb : boardGet pos.board i with
      | none => simp [hb]
      | some pc =>
          simp only [hb]
          intro hcol
          simp only [Bool.and_eq_true, beq_iff_eq] at hcol
          exact absurd hcol.2
            (by rw [hall i (List.mem_range.mp hmem) pc hb hcol.1]; simp)
  constructor
  · rw [hleg, hcheck]
    cases hA : anyAttacker pos pos.turn k <;> simp [hA]
  · rw [hleg, ← hany]
    cases hA : anyAttacker pos pos.turn k <;> simp [hA]

theorem c7_legality_witness :
    kingIdx
      (setPieceSq (setPieceSq (setPieceSq (setPieceSq
        ⟨emptyBoard, Hand.empty, Hand.empty, Color.white⟩
        ⟨5, 9⟩ (some ⟨strOf "K", Color.black, false⟩))
        ⟨5, 1⟩ (some ⟨strOf "R", Color.white, false⟩))
        ⟨1, 1⟩ (some ⟨strOf "K", Color.white, false⟩))
        ⟨1, 9⟩ (some ⟨strOf "G", Color.black, false⟩))
      (Color.white.other) = some 76 ∧
    (isLegalPosition
      (setPieceSq (setPieceSq (setPieceSq (setPieceSq
        ⟨emptyBoard, Hand.empty, Hand.empty, Color.white⟩
        ⟨5, 9⟩ (some ⟨strOf "K", Color.black, false⟩))
        ⟨5, 1⟩ (some ⟨strOf "R", Color.white, false⟩))
        ⟨1, 1⟩ (some ⟨strOf "K", Color.white, false⟩))
        ⟨1, 9⟩ (some ⟨strOf "G", Color.black, false⟩)) = true ↔
     isInCheck
      (setPieceSq (setPieceSq (setPieceSq (setPieceSq
        ⟨emptyBoard, Hand.empty, Hand.empty, Color.white⟩
        ⟨5, 9⟩ (some ⟨strOf "K", Color.black, false⟩))
        ⟨5, 1⟩ (some ⟨strOf "R", Color.white, false⟩))
        ⟨1, 1⟩ (some ⟨strOf "K", Color.white, false⟩))
        ⟨1, 9⟩ (some ⟨strOf "G", Color.black, false⟩))
      (Color.white.other) = .ok false) :=
  ⟨by decide,
   (c7_legality
     (setPieceSq (setPieceSq (setPieceSq (setPieceSq
       ⟨emptyBoard, Hand.empty, Hand.empty, Color.white⟩
       ⟨5, 9⟩ (some ⟨strOf "K", Color.black, false⟩))
       ⟨5, 1⟩ (some ⟨strOf "R", Color.white, false⟩))
       ⟨1, 1⟩ (some ⟨strOf "K", Color.white, false⟩))
       ⟨1, 9⟩ (some ⟨strOf "G", Color.black, false⟩)) 76 (by decide)).1⟩

theorem readBits_natBits (k : Nat) : ∀ (n : Nat) (rest : List Bool), n < 2 ^ k →
    readBits k (natBits k n ++ rest) = .ok (n, rest) := by
  induction k with
  | zero =>
      intro n rest hn
      interval_cases n
      rfl
  | succ k ih =>
      intro n rest hn
      have hlt : n / 2 < 2 ^ k := by
        have h2 : (2 : Nat) ^ (k + 1) = 2 ^ k * 2 := by ring
        omega
      simp only [natBits, List.cons_append, readBits, readBit]
      rw [ih (n / 2) rest hlt]
      have hval : (if n % 2 = 1 then 1 else 0) + 2 * (n / 2) = n := by
        rcases Nat.mod_two_eq_zero_or_one n with h | h <;> simp [h] <;> omega
      simp [hval]

theorem readCode_boardCodes (c : CodeSpec) (hc : c ∈ boardCodes) (rest : List Bool) :
    readCode boardCodes (codeBits c ++ rest) = .ok (c, rest) := by
  fin_cases hc <;> rfl

theorem readCode_handCodes (c : CodeSpec) (hc : c ∈ handCodes) (rest : List Bool) :
    readCode handCodes (codeBits c ++ rest) = .ok (c, rest) := by
  fin_cases hc <;> rfl

theorem colorBit_roundtrip (c : Color) :
    (if colorBit c then Color.white else Color.black) = c := by
  cases c <;> rfl

theorem packPosition256_parts (pos : Position) (packed : Packed256)
    (h : packPosition256 pos = .ok packed) :
    ∃ bk wk bb hb,
      kingSquares pos = .ok (bk, wk) ∧
      packSquares pos ((List.range 81).filter (fun sq => sq ≠ bk && sq ≠ wk)) = .ok bb ∧
      packHandsList (handEntries pos) = .ok hb ∧
      packed.bits = (if pos.turn = Color.white then true else false) ::
        (natBits 7 bk ++ natBits 7 wk ++ bb ++ hb) ∧
      packed.bits.length = 256 := by
  unfold packPosition256 at h
  cases hks : kingSquares pos with
  | error e => rw [hks] at h; exact absurd h (by simp)
  | ok bw =>
      obtain ⟨bk, wk⟩ := bw
      rw [hks] at h
      dsimp only at h
      cases hbb : packSquares pos ((List.range 81).filter (fun sq => sq ≠ bk && sq ≠ wk)) with
      | error e => rw [hbb] at h; exact absurd h (by simp)
      | ok bb =>
          rw [hbb] at h
          cases hhb : packHandsList (handEntries pos) with
          | error e => rw [hhb] at h; exact absurd h (by simp)
          | ok hb =>
              rw [hhb] at h
              dsimp only at h
              by_cases hlen : ((if pos.turn = Color.white then true else false) ::
                  (natBits 7 bk ++ natBits 7 wk ++ bb ++ hb)).length = 256
              · rw [if_pos hlen] at h
                have hp : packed = ⟨(if pos.turn = Color.white then true else false) ::
                    (natBits 7 bk ++ natBits 7 wk ++ bb ++ hb)⟩ := by
                  simpa using h.symm
                refine ⟨bk, wk, bb, hb, ?_, ?_, ?_, by rw [hp], by rw [hp]; exact hlen⟩
                all_goals first | rfl | exact hks | exact hbb | exact hhb
              · rw [if_neg hlen] at h
                exact absurd h (by simp)

theorem kingScanGo_found (pos : Position) (bk wk : Nat) :
    ∀ (L : List Nat) (b w : Option Nat), kingScanGo pos L b w = .ok (bk, wk) →
      (b = some bk ∨ (bk ∈ L ∧ ∃ pc, boardGet pos.board bk = some pc ∧
        pc.kind = strOf "K" ∧ pc.color = Color.black)) ∧
      (w = some wk ∨ (wk ∈ L ∧ ∃ pc, boardGet pos.board wk = some pc ∧
        pc.kind = strOf "K" ∧ pc.color = Color.white)) := by
  intro L
  induction L with
  | nil =>
      intro b w h
      cases b with
      | none => exact absurd h (by simp [kingScanGo])
      | some bi =>
          cases w with
          | none => exact absurd h (by simp [kingScanGo])
          | some wi =>
              simp only [kingScanGo, Except.ok.injEq, Prod.mk.injEq] at h
              exact ⟨Or.inl (by rw [h.1]), Or.inl (by rw [h.2])⟩
  | cons i L ih =>
      intro b w h
      unfold kingScanGo at h
      cases hcell : boardGet pos.board i with
      | none =>
          rw [hcell] at h
          dsimp only at h
          have := ih b w h
          refine ⟨?_, ?_⟩
          · rcases this.1 with h1 | ⟨hm, hp⟩
            · exact Or.inl h1
            · exact Or.inr ⟨List.mem_cons_of_mem _ hm, hp⟩
          · rcases this.2 with h1 | ⟨hm, hp⟩
            · exact Or.inl h1
            · exact Or.inr ⟨List.mem_cons_of_mem _ hm, hp⟩
      | some pc =>
          rw [hcell] at h
          dsimp only at h
          by_cases hK : pc.kind = strOf "K"
          · rw [if_pos hK] at h
            by_cases hB : pc.color = Color.black
            · rw [if_pos hB] at h
              cases b with
              | some bi => simp at h
              | none =>
                  rw [if_neg (by simp)] at h
                  have := ih (some i) w h
                  refine ⟨?_, ?_⟩
                  · rcases this.1 with h1 | ⟨hm, hp⟩
                    · have hib : i = bk := by simpa using h1
                      subst hib
                      exact Or.inr ⟨List.mem_cons_self .., ⟨pc, hcell, hK, hB⟩⟩
                    · exact Or.inr ⟨List.mem_cons_of_mem _ hm, hp⟩
                  · rcases this.2 with h1 | ⟨hm, hp⟩
                    · exact Or.inl h1
                    · exact Or.inr ⟨List.mem_cons_of_mem _ hm, hp⟩
            · rw [if_neg hB] at h
              cases w with
              | some wi => simp at h
              | none =>
                  rw [if_neg (by simp)] at h
                  have hW : pc.color = Color.white := by
                    cases hcc : pc.color
                    · exact absurd hcc hB
                    · rfl
                  have := ih b (some i) h
                  refine ⟨?_, ?_⟩
                  · rcases this.1 with h1 | ⟨hm, hp⟩
                    · exact Or.inl h1
                    · exact Or.inr ⟨List.mem_cons_of_mem _ hm, hp⟩
                  · rcases this.2 with h1 | ⟨hm, hp⟩
                    · have hiw : i = wk := by simpa using h1
                      subst hiw
                      exact Or.inr ⟨List.mem_cons_self .., ⟨pc, hcell, hK, hW⟩⟩
                    · exact Or.inr ⟨List.mem_cons_of_mem _ hm, hp⟩
          · rw [if_neg hK] at h
            have := ih b w h
            refine ⟨?_, ?_⟩
            · rcases this.1 with h1 | ⟨hm, hp⟩
              · exact Or.inl h1
              · exact Or.inr ⟨List.mem_cons_of_mem _ hm, hp⟩
            · rcases this.2 with h1 | ⟨hm, hp⟩
              · exact Or.inl h1
              · exact Or.inr ⟨List.mem_cons_of_mem _ hm, hp⟩

theorem kingSquares_found (pos : Position) (bk wk : Nat)
    (h : kingSquares pos = .ok (bk, wk)) :
    bk < 81 ∧ wk < 81 ∧ bk ≠ wk ∧
    (∃ pc, boardGet pos.board bk = some pc ∧ pc.kind = strOf "K" ∧ pc.color = Color.black) ∧
    (∃ pc, boardGet pos.board wk = some pc ∧ pc.kind = strOf "K" ∧ pc.color = Color.white) := by
  have := kingScanGo_found pos bk wk (List.range 81) none none h
  rcases this.1 with h1 | ⟨hmB, hpB⟩
  · exact absurd h1 (by simp)
  · rcases this.2 with h2 | ⟨hmW, hpW⟩
    · exact absurd h2 (by simp)
    · refine ⟨List.mem_range.mp hmB, List.mem_range.mp hmW, ?_, hpB, hpW⟩
      intro hbw
      obtain ⟨pb, hb1, hb2, hb3⟩ := hpB
      obtain ⟨pw, hw1, hw2, hw3⟩ := hpW
      rw [hbw, hw1] at hb1
      cases hb1
      rw [hb3] at hw3
      exact Color.noConfusion hw3

theorem natBits_length (k : Nat) : ∀ (n : Nat), (natBits k n).length = k := by
  induction k with
  | zero => intro n; rfl
  | succ k ih => intro n; simp [natBits, ih]

theorem boardGet_empty (i : Nat) : boardGet emptyBoard i = none := by
  unfold boardGet emptyBoard
  rcases Nat.lt_or_ge i 81 with h | h
  · rw [List.getD_eq_getElem _ _ (by simpa using h)]
    exact List.getElem_replicate ..
  · rw [List.getD_eq_default _ _ (by simpa using h)]

theorem boardGet_set (l : List (Option Piece)) : ∀ (i : Nat) (v : Option Piece) (j : Nat),
    boardGet (l.set i v) j = if i = j ∧ i < l.length then v else boardGet l j := by
  induction l with
  | nil => intro i v j; simp [boardGet]
  | cons a t ih =>
      intro i v j
      cases i with
      | zero =>
          cases j with
          | zero => simp [boardGet]
          | succ j => simp [boardGet]
      | succ i =>
          cases j with
          | zero => simp [boardGet]
          | succ j =>
              rw [show ((a :: t).set (i + 1) v) = a :: t.set i v from rfl,
                show boardGet (a :: t.set i v) (j + 1) = boardGet (t.set i v) j from rfl,
                show boardGet (a :: t) (j + 1) = boardGet t j from rfl,
                ih i v j, List.length_cons]
              by_cases h : i = j ∧ i < t.length
              · obtain ⟨h1, h2⟩ := h
                rw [if_pos ⟨h1, h2⟩, if_pos ⟨by omega, by omega⟩]
              · rw [if_neg h, if_neg (by omega)]

theorem kindWeight_P : kindWeight (strOf "P") = 3 := rfl

theorem kindWeight_L : kindWeight (strOf "L") = 5 := rfl

theorem kindWeight_N : kindWeight (strOf "N") = 5 := rfl

theorem kindWeight_S : kindWeight (strOf "S") = 5 := rfl

theorem kindWeight_G : kindWeight (strOf "G") = 5 := rfl

theorem kindWeight_B : kindWeight (strOf "B") = 7 := rfl

theorem kindWeight_R : kindWeight (strOf "R") = 7 := rfl

theorem kindWeight_K : kindWeight (strOf "K") = 0 := rfl

theorem packCell_none : packCell none = .ok [false] := rfl

theorem packCell_P (col : Color) (pr : Bool) :
    packCell (some ⟨strOf "P", col, pr⟩) = .ok [true, false, colorBit col, pr] := rfl

theorem packCell_L (col : Color) (pr : Bool) :
    packCell (some ⟨strOf "L", col, pr⟩) =
      .ok [true, true, false, false, colorBit col, pr] := rfl

theorem packCell_N (col : Color) (pr : Bool) :
    packCell (some ⟨strOf "N", col, pr⟩) =
      .ok [true, true, false, true, colorBit col, pr] := rfl

theorem packCell_S (col : Color) (pr : Bool) :
    packCell (some ⟨strOf "S", col, pr⟩) =
      .ok [true, true, true, false, colorBit col, pr] := rfl

theorem packCell_G (col : Color) (pr : Bool) :
    packCell (some ⟨strOf "G", col, pr⟩) =
      .ok [true, true, true, true, false, colorBit col] := rfl

theorem packCell_B (col : Color) (pr : Bool) :
    packCell (some ⟨strOf "B", col, pr⟩) =
      .ok [true, true, true, true, true, false, colorBit col, pr] := rfl

theorem packCell_R (col : Color) (pr : Bool) :
    packCell (some ⟨strOf "R", col, pr⟩) =
      .ok [true, true, true, true, true, true, colorBit col, pr] := rfl

theorem unpackSquares_step_empty (sq : Nat) (S : List Nat) (q : Position) (r : List Bool) :
    unpackSquares (sq :: S) q (false :: r) = unpackSquares S q r := rfl

theorem unpackSquares_step_P (sq : Nat) (S : List Nat) (q : Position) (col : Color)
    (pr : Bool) (r : List Bool) :
    unpackSquares (sq :: S) q (true :: false :: colorBit col :: pr :: r) =
      unpackSquares S (setBoardIdx q sq (some ⟨strOf "P", col, pr⟩)) r := by
  cases col <;> rfl

theorem unpackSquares_step_L (sq : Nat) (S : List Nat) (q : Position) (col : Color)
    (pr : Bool) (r : List Bool) :
    unpackSquares (sq :: S) q (true :: true :: false :: false :: colorBit col :: pr :: r) =
      unpackSquares S (setBoardIdx q sq (some ⟨strOf "L", col, pr⟩)) r := by
  cases col <;> rfl

theorem unpackSquares_step_N (sq : Nat) (S : List Nat) (q : Position) (col : Color)
    (pr : Bool) (r : List Bool) :
    unpackSquares (sq :: S) q (true :: true :: false :: true :: colorBit col :: pr :: r) =
      unpackSquares S (setBoardIdx q sq (some ⟨strOf "N", col, pr⟩)) r := by
  cases col <;> rfl

theorem unpackSquares_step_S (sq : Nat) (S : List Nat) (q : Position) (col : Color)
    (pr : Bool) (r : List Bool) :
    unpackSquares (sq :: S) q (true :: true :: true :: false :: colorBit col :: pr :: r) =
      unpackSquares S (setBoardIdx q sq (some ⟨strOf "S", col, pr⟩)) r := by
  cases col <;> rfl

theorem unpackSquares_step_G (sq : Nat) (S : List Nat) (q : Position) (col : Color)
    (r : List Bool) :
    unpackSquares (sq :: S) q (true :: true :: true :: true :: false :: colorBit col :: r) =
      unpackSquares S (setBoardIdx q sq (some ⟨strOf "G", col, false⟩)) r := by
  cases col <;> rfl

theorem unpackSquares_step_B (sq : Nat) (S : List Nat) (q : Position) (col : Color)
    (pr : Bool) (r : List Bool) :
    unpackSquares (sq :: S) q
        (true :: true :: true :: true :: true :: false :: colorBit col :: pr :: r) =
      unpackSquares S (setBoardIdx q sq (some ⟨strOf "B", col, pr⟩)) r := by
  cases col <;> rfl

theorem unpackSquares_step_R (sq : Nat) (S : List Nat) (q : Position) (col : Color)
    (pr : Bool) (r : List Bool) :
    unpackSquares (sq :: S) q
        (true :: true :: true :: true :: true :: true :: colorBit col :: pr :: r) =
      unpackSquares S (setBoardIdx q sq (some ⟨strOf "R", col, pr⟩)) r := by
  cases col <;> rfl

theorem applyCells_cons (pos : Position) (sq : Nat) (L : List Nat) (q : Position) :
    applyCells pos (sq :: L) q =
      applyCells pos L (match boardGet pos.board sq with
        | none => q
        | some pc => setBoardIdx q sq (some pc)) := rfl

theorem unpack_pack_squares (pos : Position) : ∀ (L : List Nat) (q : Position)
    (bs rest : List Bool),
    packSquares pos L = .ok bs →
    (∀ sq ∈ L, ∀ pc, boardGet pos.board sq = some pc →
      pc.kind ∈ [strOf "P", strOf "L", strOf "N", strOf "S", strOf "B", strOf "R"] ∨
      (pc.kind = strOf "G" ∧ pc.promoted = false)) →
    unpackSquares L q (bs ++ rest) = .ok (applyCells pos L q, rest) := by
  intro L
  induction L with
  | nil =>
      intro q bs rest hp _
      injection hp with hbs
      subst hbs
      rfl
  | cons sq L ih =>
      intro q bs rest hp hk
      unfold packSquares at hp
      cases hc : packCell (boardGet pos.board sq) with
      | error e => rw [hc] at hp; exact absurd hp (by simp)
      | ok cb =>
          rw [hc] at hp
          dsimp only at hp
          cases hr : packSquares pos L with
          | error e => rw [hr] at hp; exact absurd hp (by simp)
          | ok rb =>
              rw [hr] at hp
              dsimp only at hp
              injection hp with hbs
              subst hbs
              have hknd := hk sq (List.mem_cons_self ..)
              have hkrest : ∀ s ∈ L, ∀ pc, boardGet pos.board s = some pc →
                  pc.kind ∈ [strOf "P", strOf "L", strOf "N", strOf "S", strOf "B", strOf "R"] ∨
                  (pc.kind = strOf "G" ∧ pc.promoted = false) :=
                fun s hs => hk s (List.mem_cons_of_mem _ hs)
              cases hcell : boardGet pos.board sq with
              | none =>
                  rw [hcell] at hc
                  rw [packCell_none] at hc
                  injection hc with hcb
                  subst hcb
                  rw [applyCells_cons, hcell]
                  simp only [List.cons_append, List.nil_append, List.append_assoc]
                  rw [unpackSquares_step_empty]
                  exact ih q rb rest hr hkrest
              | some pc =>
                  obtain ⟨k, col, pr⟩ := pc
                  rw [hcell] at hc
                  have hm := hknd ⟨k, col, pr⟩ hcell
                  rcases hm with hmem | ⟨hg, hpr⟩
                  · simp only [List.mem_cons, List.not_mem_nil, or_false] at hmem
                    rcases hmem with rfl | rfl | rfl | rfl | rfl | rfl <;>
                    (first
                      | rw [packCell_P] at hc
                      | rw [packCell_L] at hc
                      | rw [packCell_N] at hc
                      | rw [packCell_S] at hc
                      | rw [packCell_B] at hc
                      | rw [packCell_R] at hc) <;>
                    (injection hc with hcb) <;>
                    subst hcb <;>
                    rw [applyCells_cons, hcell] <;>
                    simp only [List.cons_append, List.nil_append, List.append_assoc] <;>
                    (first
                      | rw [unpackSquares_step_P]
                      | rw [unpackSquares_step_L]
                      | rw [unpackSquares_step_N]
                      | rw [unpackSquares_step_S]
                      | rw [unpackSquares_step_B]
                      | rw [unpackSquares_step_R]) <;>
                    exact ih _ rb rest hr hkrest
                  · have hgk : k = strOf "G" := hg
                    have hprf : pr = false := hpr
                    subst hgk
                    subst hprf
                    rw [packCell_G] at hc
                    injection hc with hcb
                    subst hcb
                    rw [applyCells_cons, hcell]
                    simp only [List.cons_append, List.nil_append, List.append_assoc]
                    rw [unpackSquares_step_G]
                    exact ih _ rb rest hr hkrest

theorem packSquares_no_king (pos : Position) : ∀ (L : List Nat) (bs : List Bool),
    packSquares pos L = .ok bs → ∀ sq ∈ L, ∀ pc, boardGet pos.board sq = some pc →
      pc.kind ≠ strOf "K" := by
  intro L
  induction L with
  | nil => intro bs _ sq hsq; exact absurd hsq (List.not_mem_nil _)
  | cons j L ih =>
      intro bs hp sq hsq pc hpc hK
      unfold packSquares at hp
      cases hc : packCell (boardGet pos.board j) with
      | error e => rw [hc] at hp; exact absurd hp (by simp)
      | ok cb =>
          rw [hc] at hp
          dsimp only at hp
          cases hr : packSquares pos L with
          | error e => rw [hr] at hp; exact absurd hp (by simp)
          | ok rb =>
              rcases List.mem_cons.mp hsq with rfl | hm
              · rw [hpc] at hc
                unfold packCell at hc
                dsimp only at hc
                rw [if_pos hK] at hc
                exact absurd hc (by simp)
              · exact ih rb hr sq hm pc hpc hK

theorem kingScanGo_b_fixed (pos : Position) : ∀ (L : List Nat) (x : Nat) (w : Option Nat)
    (p : Nat × Nat), kingScanGo pos L (some x) w = .ok p → p.1 = x := by
  intro L
  induction L with
  | nil =>
      intro x w p h
      cases w with
      | none => exact absurd h (by simp [kingScanGo])
      | some wi =>
          rw [show kingScanGo pos [] (some x) (some wi) = .ok (x, wi) from rfl] at h
          injection h with h2
          rw [← h2]
  | cons i L ih =>
      intro x w p h
      unfold kingScanGo at h
      cases hcell : boardGet pos.board i with
      | none => rw [hcell] at h; exact ih x w p h
      | some pc =>
          rw [hcell] at h
          dsimp only at h
          by_cases hK : pc.kind = strOf "K"
          · rw [if_pos hK] at h
            by_cases hB : pc.color = .black
            · rw [if_pos hB] at h
              simp at h
            · rw [if_neg hB] at h
              cases w with
              | some wi => simp at h
              | none =>
                  rw [if_neg (by simp)] at h
                  exact ih x (some i) p h
          · rw [if_neg hK] at h
            exact ih x w p h

theorem kingScanGo_w_fixed (pos : Position) : ∀ (L : List Nat) (b : Option Nat) (x : Nat)
    (p : Nat × Nat), kingScanGo pos L b (some x) = .ok p → p.2 = x := by
  intro L
  induction L with
  | nil =>
      intro b x p h
      cases b with
      | none => exact absurd h (by simp [kingScanGo])
      | some bi =>
          rw [show kingScanGo pos [] (some bi) (some x) = .ok (bi, x) from rfl] at h
          injection h with h2
          rw [← h2]
  | cons i L ih =>
      intro b x p h
      unfold kingScanGo at h
      cases hcell : boardGet pos.board i with
      | none => rw [hcell] at h; exact ih b x p h
      | some pc =>
          rw [hcell] at h
          dsimp only at h
          by_cases hK : pc.kind = strOf "K"
          · rw [if_pos hK] at h
            by_cases hB : pc.color = .black
            · rw [if_pos hB] at h
              cases b with
              | some bi => simp at h
              | none =>
                  rw [if_neg (by simp)] at h
                  exact ih (some i) x p h
            · rw [if_neg hB] at h
              simp at h
          · rw [if_neg hK] at h
            exact ih b x p h

theorem kingScanGo_black_unique (pos : Position) : ∀ (L : List Nat) (b w : Option Nat)
    (bk wk : Nat), kingScanGo pos L b w = .ok (bk, wk) →
    ∀ i ∈ L, ∀ pc, boardGet pos.board i = some pc → pc.kind = strOf "K" →
      pc.color = Color.black → i = bk := by
  intro L
  induction L with
  | nil => intro b w bk wk h i hi; exact absurd hi (List.not_mem_nil _)
  | cons j L ih =>
      intro b w bk wk h i hi pc hpc hK hC
      unfold kingScanGo at h
      cases hcell : boardGet pos.board j with
      | none =>
          rw [hcell] at h
          rcases List.mem_cons.mp hi with rfl | hm
          · exact absurd (hpc.symm.trans hcell) (by simp)
          · exact ih _ _ _ _ h i hm pc hpc hK hC
      | some pc2 =>
          rw [hcell] at h
          dsimp only at h
          by_cases hK2 : pc2.kind = strOf "K"
          · rw [if_pos hK2] at h
            by_cases hB2 : pc2.color = .black
            · rw [if_pos hB2] at h
              cases b with
              | some x => simp at h
              | none =>
                  rw [if_neg (by simp)] at h
                  rcases List.mem_cons.mp hi with rfl | hm
                  · exact (kingScanGo_b_fixed pos L i w (bk, wk) h).symm
                  · exact ih _ _ _ _ h i hm pc hpc hK hC
            · rw [if_neg hB2] at h
              cases w with
              | some x => simp at h
              | none =>
                  rw [if_neg (by simp)] at h
                  rcases List.mem_cons.mp hi with rfl | hm
                  · rw [hpc] at hcell
                    injection hcell with he
                    exact absurd (he ▸ hC) hB2
                  · exact ih _ _ _ _ h i hm pc hpc hK hC
          · rw [if_neg hK2] at h
            rcases List.mem_cons.mp hi with rfl | hm
            · rw [hpc] at hcell
              injection hcell with he
              exact absurd (he ▸ hK) hK2
            · exact ih _ _ _ _ h i hm pc hpc hK hC

theorem kingScanGo_white_unique (pos : Position) : ∀ (L : List Nat) (b w : Option Nat)
    (bk wk : Nat), kingScanGo pos L b w = .ok (bk, wk) →
    ∀ i ∈ L, ∀ pc, boardGet pos.board i = some pc → pc.kind = strOf "K" →
      pc.color = Color.white → i = wk := by
  intro L
  induction L with
  | nil => intro b w bk wk h i hi; exact absurd hi (List.not_mem_nil _)
  | cons j L ih =>
      intro b w bk wk h i hi pc hpc hK hC
      unfold kingScanGo at h
      cases hcell : boardGet pos.board j with
      | none =>
          rw [hcell] at h
          rcases List.mem_cons.mp hi with rfl | hm
          · exact absurd (hpc.symm.trans hcell) (by simp)
          · exact ih _ _ _ _ h i hm pc hpc hK hC
      | some pc2 =>
          rw [hcell] at h
          dsimp only at h
          by_cases hK2 : pc2.kind = strOf "K"
          · rw [if_pos hK2] at h
            by_cases hB2 : pc2.color = .black
            · rw [if_pos hB2] at h
              cases b with
              | some x => simp at h
              | none =>
                  rw [if_neg (by simp)] at h
                  rcases List.mem_cons.mp hi with rfl | hm
                  · rw [hpc] at hcell
                    injection hcell with he
                    rw [← he, hC] at hB2
                    exact Color.noConfusion hB2
                  · exact ih _ _ _ _ h i hm pc hpc hK hC
            · rw [if_neg hB2] at h
              cases w with
              | some x => simp at h
              | none =>
                  rw [if_neg (by simp)] at h
                  rcases List.mem_cons.mp hi with rfl | hm
                  · exact (kingScanGo_w_fixed pos L b i (bk, wk) h).symm
                  · exact ih _ _ _ _ h i hm pc hpc hK hC
          · rw [if_neg hK2] at h
            rcases List.mem_cons.mp hi with rfl | hm
            · rw [hpc] at hcell
              injection hcell with he
              exact absurd (he ▸ hK) hK2
            · exact ih _ _ _ _ h i hm pc hpc hK hC

theorem applyCells_frame (pos : Position) : ∀ (L : List Nat) (q : Position),
    (applyCells pos L q).handB = q.handB ∧ (applyCells pos L q).handW = q.handW ∧
    (applyCells pos L q).turn = q.turn := by
  intro L
  induction L with
  | nil => intro q; exact ⟨rfl, rfl, rfl⟩
  | cons sq L ih =>
      intro q
      rw [applyCells_cons]
      cases boardGet pos.board sq with
      | none => exact ih q
      | some pc => exact ih (setBoardIdx q sq (some pc))

theorem applyCells_length (pos : Position) : ∀ (L : List Nat) (q : Position),
    (applyCells pos L q).board.length = q.board.length := by
  intro L
  induction L with
  | nil => intro q; rfl
  | cons sq L ih =>
      intro q
      rw [applyCells_cons]
      cases boardGet pos.board sq with
      | none => exact ih q
      | some pc => exact (ih _).trans (by simp [setBoardIdx])

theorem applyCells_get_notmem (pos : Position) : ∀ (L : List Nat) (q : Position) (i : Nat),
    i ∉ L → boardGet (applyCells pos L q).board i = boardGet q.board i := by
  intro L
  induction L with
  | nil => intro q i _; rfl
  | cons sq L ih =>
      intro q i hi
      rw [applyCells_cons]
      have hne : i ≠ sq := fun hh => hi (hh ▸ List.mem_cons_self ..)
      have hni : i ∉ L := fun hh => hi (List.mem_cons_of_mem _ hh)
      cases boardGet pos.board sq with
      | none => exact ih q i hni
      | some pc =>
          rw [ih _ i hni,
            show (setBoardIdx q sq (some pc)).board = q.board.set sq (some pc) from rfl,
            boardGet_set, if_neg (fun hh => hne hh.1.symm)]

theorem applyCells_get_mem (pos : Position) : ∀ (L : List Nat) (q : Position) (i : Nat),
    L.Nodup → i ∈ L → i < q.board.length →
    boardGet (applyCells pos L q).board i =
      (match boardGet pos.board i with
       | none => boardGet q.board i
       | some pc => some pc) := by
  intro L
  induction L with
  | nil => intro q i _ hi _; exact absurd hi (List.not_mem_nil _)
  | cons sq L ih =>
      intro q i hnd hi hlt
      have hnd2 : L.Nodup := (List.nodup_cons.mp hnd).2
      have hsq : sq ∉ L := (List.nodup_cons.mp hnd).1
      rw [applyCells_cons]
      rcases List.mem_cons.mp hi with rfl | hmem
      · cases hcell : boardGet pos.board i with
        | none =>
            dsimp only
            exact applyCells_get_notmem pos L q i hsq
        | some pc =>
            dsimp only
            rw [applyCells_get_notmem pos L _ i hsq,
              show (setBoardIdx q i (some pc)).board = q.board.set i (some pc) from rfl,
              boardGet_set, if_pos ⟨rfl, hlt⟩]
      · have hne : i ≠ sq := fun hh => hsq (hh ▸ hmem)
        cases hci : boardGet pos.board i with
        | none =>
            cases hcq : boardGet pos.board sq with
            | none =>
                have hh := ih q i hnd2 hmem hlt
                rw [hci] at hh
                dsimp only at hh
                exact hh
            | some pc =>
                have hlt2 : i < (setBoardIdx q sq (some pc)).board.length := by
                  simpa [setBoardIdx] using hlt
                have hh := ih (setBoardIdx q sq (some pc)) i hnd2 hmem hlt2
                rw [hci] at hh
                dsimp only at hh
                rw [hh,
                  show (setBoardIdx q sq (some pc)).board = q.board.set sq (some pc) from rfl,
                  boardGet_set, if_neg (fun hx => hne hx.1.symm)]
        | some pc2 =>
            cases hcq : boardGet pos.board sq with
            | none =>
                have hh := ih q i hnd2 hmem hlt
                rw [hci] at hh
                dsimp only at hh
                exact hh
            | some pc =>
                have hlt2 : i < (setBoardIdx q sq (some pc)).board.length := by
                  simpa [setBoardIdx] using hlt
                have hh := ih (setBoardIdx q sq (some pc)) i hnd2 hmem hlt2
                rw [hci] at hh
                dsimp only at hh
                exact hh

theorem packHandEntry_P (c : Color) :
    packHandEntry (strOf "P") c = .ok [false, colorBit c, false] := rfl

theorem packHandEntry_L (c : Color) :
    packHandEntry (strOf "L") c = .ok [true, false, false, colorBit c, false] := rfl

theorem packHandEntry_N (c : Color) :
    packHandEntry (strOf "N") c = .ok [true, false, true, colorBit c, false] := rfl

theorem packHandEntry_S (c : Color) :
    packHandEntry (strOf "S") c = .ok [true, true, false, colorBit c, false] := rfl

theorem packHandEntry_G (c : Color) :
    packHandEntry (strOf "G") c = .ok [true, true, true, false, colorBit c] := rfl

theorem packHandEntry_B (c : Color) :
    packHandEntry (strOf "B") c = .ok [true, true, true, true, false, colorBit c, false] := rfl

theorem packHandEntry_R (c : Color) :
    packHandEntry (strOf "R") c = .ok [true, true, true, true, true, colorBit c, false] := rfl

theorem readHands_step_P (fuel : Nat) (q : Position) (c : Color) (r : List Bool) :
    readHandsGo (fuel + 1) q (false :: colorBit c :: false :: r) =
      readHandsGo fuel (setHand q c (handAdd (q.hand c) (strOf "P") 1)) r := by
  cases c <;> rfl

theorem readHands_step_L (fuel : Nat) (q : Position) (c : Color) (r : List Bool) :
    readHandsGo (fuel + 1) q (true :: false :: false :: colorBit c :: false :: r) =
      readHandsGo fuel (setHand q c (handAdd (q.hand c) (strOf "L") 1)) r := by
  cases c <;> rfl

theorem readHands_step_N (fuel : Nat) (q : Position) (c : Color) (r : List Bool) :
    readHandsGo (fuel + 1) q (true :: false :: true :: colorBit c :: false :: r) =
      readHandsGo fuel (setHand q c (handAdd (q.hand c) (strOf "N") 1)) r := by
  cases c <;> rfl

theorem readHands_step_S (fuel : Nat) (q : Position) (c : Color) (r : List Bool) :
    readHandsGo (fuel + 1) q (true :: true :: false :: colorBit c :: false :: r) =
      readHandsGo fuel (setHand q c (handAdd (q.hand c) (strOf "S") 1)) r := by
  cases c <;> rfl

theorem readHands_step_G (fuel : Nat) (q : Position) (c : Color) (r : List Bool) :
    readHandsGo (fuel + 1) q (true :: true :: true :: false :: colorBit c :: r) =
      readHandsGo fuel (setHand q c (handAdd (q.hand c) (strOf "G") 1)) r := by
  cases c <;> rfl

theorem readHands_step_B (fuel : Nat) (q : Position) (c : Color) (r : List Bool) :
    readHandsGo (fuel + 1) q (true :: true :: true :: true :: false :: colorBit c :: false :: r) =
      readHandsGo fuel (setHand q c (handAdd (q.hand c) (strOf "B") 1)) r := by
  cases c <;> rfl

theorem readHands_step_R (fuel : Nat) (q : Position) (c : Color) (r : List Bool) :
    readHandsGo (fuel + 1) q (true :: true :: true :: true :: true :: colorBit c :: false :: r) =
      readHandsGo fuel (setHand q c (handAdd (q.hand c) (strOf "R") 1)) r := by
  cases c <;> rfl

theorem readHands_entries : ∀ (E : List (Str × Color)) (fuel : Nat) (q : Position)
    (bs : List Bool),
    packHandsList E = .ok bs →
    (∀ e ∈ E, e.1 ∈ handKindsOrder) →
    E.length ≤ fuel →
    readHandsGo fuel q bs = .ok (applyEntries q E) := by
  intro E
  induction E with
  | nil =>
      intro fuel q bs hp _ _
      injection hp with hbs
      subst hbs
      cases fuel <;> rfl
  | cons e E ih =>
      intro fuel q bs hp hm hf
      obtain ⟨k, c⟩ := e
      unfold packHandsList at hp
      cases hc : packHandEntry k c with
      | error e2 => rw [hc] at hp; exact absurd hp (by simp)
      | ok eb =>
          rw [hc] at hp
          dsimp only at hp
          cases hr : packHandsList E with
          | error e2 => rw [hr] at hp; exact absurd hp (by simp)
          | ok rb =>
              rw [hr] at hp
              dsimp only at hp
              injection hp with hbs
              subst hbs
              have hkm : (k, c).1 ∈ handKindsOrder := hm (k, c) (List.mem_cons_self ..)
              have hmrest : ∀ x ∈ E, x.1 ∈ handKindsOrder :=
                fun x hx => hm x (List.mem_cons_of_mem _ hx)
              obtain ⟨fuel, rfl⟩ : ∃ f, fuel = f + 1 := by
                cases fuel
                · exact absurd hf (by simp)
                · exact ⟨_, rfl⟩
              have hfr : E.length ≤ fuel := by
                simp only [List.length_cons] at hf
                omega
              simp only [handKindsOrder, List.mem_cons, List.not_mem_nil, or_false] at hkm
              rcases hkm with rfl | rfl | rfl | rfl | rfl | rfl | rfl <;>
              (first
                | rw [packHandEntry_P] at hc
                | rw [packHandEntry_L] at hc
                | rw [packHandEntry_N] at hc
                | rw [packHandEntry_S] at hc
                | rw [packHandEntry_G] at hc
                | rw [packHandEntry_B] at hc
                | rw [packHandEntry_R] at hc) <;>
              (injection hc with heb) <;>
              subst heb <;>
              simp only [List.cons_append, List.nil_append] <;>
              (first
                | rw [readHands_step_P]
                | rw [readHands_step_L]
                | rw [readHands_step_N]
                | rw [readHands_step_S]
                | rw [readHands_step_G]
                | rw [readHands_step_B]
                | rw [readHands_step_R]) <;>
              exact ih fuel _ rb hr hmrest hfr

theorem packHandsList_len_le : ∀ (E : List (Str × Color)) (bs : List Bool),
    (∀ e ∈ E, e.1 ∈ handKindsOrder) → packHandsList E = .ok bs →
    E.length ≤ bs.length := by
  intro E
  induction E with
  | nil => intro bs _ _; simp
  | cons e E ih =>
      intro bs hm hp
      obtain ⟨k, c⟩ := e
      unfold packHandsList at hp
      cases hc : packHandEntry k c with
      | error e2 => rw [hc] at hp; exact absurd hp (by simp)
      | ok eb =>
          rw [hc] at hp
          dsimp only at hp
          cases hr : packHandsList E with
          | error e2 => rw [hr] at hp; exact absurd hp (by simp)
          | ok rb =>
              rw [hr] at hp
              dsimp only at hp
              injection hp with hbs
              subst hbs
              have h1 := ih rb (fun x hx => hm x (List.mem_cons_of_mem _ hx)) hr
              have hkm : (k, c).1 ∈ handKindsOrder := hm (k, c) (List.mem_cons_self ..)
              have heb : 1 ≤ eb.length := by
                simp only [handKindsOrder, List.mem_cons, List.not_mem_nil, or_false] at hkm
                rcases hkm with rfl | rfl | rfl | rfl | rfl | rfl | rfl <;>
                (first
                  | rw [packHandEntry_P] at hc
                  | rw [packHandEntry_L] at hc
                  | rw [packHandEntry_N] at hc
                  | rw [packHandEntry_S] at hc
                  | rw [packHandEntry_G] at hc
                  | rw [packHandEntry_B] at hc
                  | rw [packHandEntry_R] at hc) <;>
                (injection hc with he2) <;>
                subst he2 <;>
                simp
              simp only [List.length_cons, List.length_append]
              omega

theorem handEntries_kinds (pos : Position) : ∀ e ∈ handEntries pos, e.1 ∈ handKindsOrder := by
  intro e he
  simp only [handEntries, List.mem_flatMap] at he
  obtain ⟨c, _, k, hk, hrep⟩ := he
  have he2 := List.eq_of_mem_replicate hrep
  subst he2
  exact hk

theorem applyEntries_nil (q : Position) : applyEntries q [] = q := rfl

theorem applyEntries_append (q : Position) (E1 E2 : List (Str × Color)) :
    applyEntries q (E1 ++ E2) = applyEntries (applyEntries q E1) E2 := by
  simp [applyEntries, List.foldl_append]

theorem setHand_same (q : Position) (c : Color) : setHand q c (q.hand c) = q := by
  cases c <;> rfl

theorem hand_setHand (q : Position) (c : Color) (h : Hand) : (setHand q c h).hand c = h := by
  cases c <;> rfl

theorem setHand_setHand (q : Position) (c : Color) (h1 h2 : Hand) :
    setHand (setHand q c h1) c h2 = setHand q c h2 := by
  cases c <;> rfl

theorem setHand_board (q : Position) (c : Color) (h : Hand) :
    (setHand q c h).board = q.board := by
  cases c <;> rfl

theorem setHand_turn (q : Position) (c : Color) (h : Hand) :
    (setHand q c h).turn = q.turn := by
  cases c <;> rfl

theorem handAdd_zero (h : Hand) (k : Str) : handAdd h k 0 = h := by
  unfold handAdd
  split_ifs <;> rfl

theorem handAdd_add (h : Hand) (k : Str) (m n : Nat) :
    handAdd (handAdd h k m) k n = handAdd h k (m + n) := by
  unfold handAdd
  split_ifs <;> simp [Hand.mk.injEq] <;> omega

theorem applyEntries_rep (k : Str) : ∀ (n : Nat) (c : Color) (q : Position),
    applyEntries q (List.replicate n (k, c)) = setHand q c (handAdd (q.hand c) k n) := by
  intro n
  induction n with
  | zero =>
      intro c q
      rw [handAdd_zero, setHand_same]
      rfl
  | succ n ih =>
      intro c q
      have step : applyEntries q (List.replicate (n + 1) (k, c)) =
          applyEntries (setHand q c (handAdd (q.hand c) k 1)) (List.replicate n (k, c)) := rfl
      rw [step, ih, hand_setHand, setHand_setHand, handAdd_add, Nat.add_comm 1 n]

theorem applyEntries_entriesOf (h : Hand) (c : Color) (q : Position) :
    applyEntries q (entriesOf h c) =
      setHand q c (mergeCounts (q.hand c)
        ⟨h.cntP, h.cntL, h.cntN, h.cntS, h.cntG, h.cntB, h.cntR, 0⟩) := by
  have e : entriesOf h c =
      List.replicate h.cntP (strOf "P", c) ++ (List.replicate h.cntL (strOf "L", c) ++
      (List.replicate h.cntN (strOf "N", c) ++ (List.replicate h.cntS (strOf "S", c) ++
      (List.replicate h.cntG (strOf "G", c) ++ (List.replicate h.cntB (strOf "B", c) ++
      (List.replicate h.cntR (strOf "R", c) ++ [])))))) := rfl
  rw [e]
  simp only [applyEntries_append, applyEntries_rep, applyEntries_nil, hand_setHand,
    setHand_setHand]
  rfl

theorem handEntries_split (pos : Position) :
    handEntries pos = entriesOf pos.handB Color.black ++ entriesOf pos.handW Color.white := by
  simp [handEntries, entriesOf, Position.hand]

theorem applyEntries_frame : ∀ (E : List (Str × Color)) (q : Position),
    (applyEntries q E).board = q.board ∧ (applyEntries q E).turn = q.turn := by
  intro E
  induction E with
  | nil => intro q; exact ⟨rfl, rfl⟩
  | cons e E ih =>
      intro q
      obtain ⟨k, c⟩ := e
      have step : applyEntries q ((k, c) :: E) =
          applyEntries (setHand q c (handAdd (q.hand c) k 1)) E := rfl
      rw [step]
      have hh := ih (setHand q c (handAdd (q.hand c) k 1))
      exact ⟨hh.1.trans (setHand_board q c _), hh.2.trans (setHand_turn q c _)⟩

theorem pack256Lossless_spec (pos : Position) (hw : pack256Lossless pos = true) :
    pos.board.length = 81 ∧
    (∀ i, i < 81 → ∀ pc, boardGet pos.board i = some pc →
      pc.kind ∈ [strOf "P", strOf "L", strOf "N", strOf "S", strOf "B", strOf "R"] ∨
      ((pc.kind = strOf "K" ∨ pc.kind = strOf "G") ∧ pc.promoted = false)) ∧
    pos.handB.cntK = 0 ∧ pos.handW.cntK = 0 := by
  unfold pack256Lossless at hw
  simp only [Bool.and_eq_true, beq_iff_eq, List.all_eq_true] at hw
  obtain ⟨⟨⟨hlen, hall⟩, hbk⟩, hwk⟩ := hw
  refine ⟨hlen, ?_, hbk, hwk⟩
  intro i hi pc hpc
  have hh := hall i (List.mem_range.mpr hi)
  rw [hpc] at hh
  dsimp only at hh
  have hh2 : (((((pc.kind = strOf "P" ∨ pc.kind = strOf "L") ∨ pc.kind = strOf "N") ∨
      pc.kind = strOf "S") ∨ pc.kind = strOf "B") ∨ pc.kind = strOf "R") ∨
      ((pc.kind = strOf "K" ∨ pc.kind = strOf "G") ∧ pc.promoted = false) := by
    simpa [Bool.or_eq_true, Bool.and_eq_true, beq_iff_eq, Bool.not_eq_true'] using hh
  rcases hh2 with (((((h | h) | h) | h) | h) | h) | ⟨hkg, hp⟩
  all_goals first
    | exact Or.inl (by rw [h]; decide)
    | exact Or.inr ⟨hkg, hp⟩

theorem applyEntries_hands_exact (pos Q : Position)
    (hb0 : Q.board = pos.board) (ht0 : Q.turn = pos.turn)
    (hHB : Q.handB = Hand.empty) (hHW : Q.handW = Hand.empty)
    (hBK : pos.handB.cntK = 0) (hWK : pos.handW.cntK = 0) :
    applyEntries Q (handEntries pos) = pos := by
  rw [handEntries_split pos, applyEntries_append, applyEntries_entriesOf,
    applyEntries_entriesOf]
  have hQb : Q.hand Color.black = Hand.empty := hHB
  have hMB : mergeCounts (Q.hand Color.black)
      ⟨pos.handB.cntP, pos.handB.cntL, pos.handB.cntN, pos.handB.cntS, pos.handB.cntG,
       pos.handB.cntB, pos.handB.cntR, 0⟩ = pos.handB := by
    rw [hQb]
    rw [show pos.handB = ⟨pos.handB.cntP, pos.handB.cntL, pos.handB.cntN, pos.handB.cntS,
      pos.handB.cntG, pos.handB.cntB, pos.handB.cntR, pos.handB.cntK⟩ from rfl]
    simp only [mergeCounts, Hand.empty, Hand.mk.injEq]
    omega
  rw [hMB]
  have hQw : (setHand Q Color.black pos.handB).hand Color.white = Hand.empty := hHW
  have hMW : mergeCounts ((setHand Q Color.black pos.handB).hand Color.white)
      ⟨pos.handW.cntP, pos.handW.cntL, pos.handW.cntN, pos.handW.cntS, pos.handW.cntG,
       pos.handW.cntB, pos.handW.cntR, 0⟩ = pos.handW := by
    rw [hQw]
    rw [show pos.handW = ⟨pos.handW.cntP, pos.handW.cntL, pos.handW.cntN, pos.handW.cntS,
      pos.handW.cntG, pos.handW.cntB, pos.handW.cntR, pos.handW.cntK⟩ from rfl]
    simp only [mergeCounts, Hand.empty, Hand.mk.injEq]
    omega
  rw [hMW]
  rw [show setHand (setHand Q Color.black pos.handB) Color.white pos.handW =
    (⟨Q.board, pos.handB, pos.handW, Q.turn⟩ : Position) from rfl]
  rw [hb0, ht0]

theorem applyCells_start_board (pos : Position) (bk wk : Nat) (turn : Color)
    (hlen : pos.board.length = 81) (hbk81 : bk < 81) (hwk81 : wk < 81) (hbkwk : bk ≠ wk)
    (hcb : boardGet pos.board bk = some ⟨strOf "K", Color.black, false⟩)
    (hcw : boardGet pos.board wk = some ⟨strOf "K", Color.white, false⟩) :
    (applyCells pos ((List.range 81).filter (fun sq => sq ≠ bk && sq ≠ wk))
      (unpackStart turn bk wk)).board = pos.board := by
  have hslen : (unpackStart turn bk wk).board.length = 81 := by
    simp [unpackStart, setBoardIdx, emptyBoard]
  have hget : ∀ i, i < 81 →
      boardGet (applyCells pos ((List.range 81).filter (fun sq => sq ≠ bk && sq ≠ wk))
        (unpackStart turn bk wk)).board i = boardGet pos.board i := by
    intro i hi
    by_cases hib : i = bk
    · subst hib
      rw [applyCells_get_notmem pos _ _ i (by simp)]
      rw [show (unpackStart turn i wk).board =
        (emptyBoard.set i (some ⟨strOf "K", Color.black, false⟩)).set wk
          (some ⟨strOf "K", Color.white, false⟩) from rfl]
      rw [boardGet_set, if_neg (fun hx => hbkwk hx.1.symm), boardGet_set,
        if_pos ⟨rfl, by simpa [emptyBoard] using hbk81⟩, hcb]
    · by_cases hiw : i = wk
      · subst hiw
        rw [applyCells_get_notmem pos _ _ i (by simp)]
        rw [show (unpackStart turn bk i).board =
          (emptyBoard.set bk (some ⟨strOf "K", Color.black, false⟩)).set i
            (some ⟨strOf "K", Color.white, false⟩) from rfl]
        rw [boardGet_set, if_pos ⟨rfl, by simpa [emptyBoard] using hwk81⟩, hcw]
      · have hmemF : i ∈ (List.range 81).filter (fun sq => sq ≠ bk && sq ≠ wk) := by
          refine List.mem_filter.mpr ⟨List.mem_range.mpr hi, ?_⟩
          simp [hib, hiw]
        have hltS : i < (unpackStart turn bk wk).board.length := by
          rw [hslen]; exact hi
        have hnd : ((List.range 81).filter (fun sq => sq ≠ bk && sq ≠ wk)).Nodup :=
          (List.nodup_range 81).filter _
        have hh := applyCells_get_mem pos _ (unpackStart turn bk wk) i hnd hmemF hltS
        cases hci : boardGet pos.board i with
        | none =>
            rw [hci] at hh
            dsimp only at hh
            rw [hh, show (unpackStart turn bk wk).board =
              (emptyBoard.set bk (some ⟨strOf "K", Color.black, false⟩)).set wk
                (some ⟨strOf "K", Color.white, false⟩) from rfl,
              boardGet_set, if_neg (fun hx => hiw hx.1.symm),
              boardGet_set, if_neg (fun hx => hib hx.1.symm), boardGet_empty]
        | some pc =>
            rw [hci] at hh
            dsimp only at hh
            rw [hh]
  apply List.ext_getElem
  · rw [applyCells_length, hslen, hlen]
  · intro i h1 h2
    have hi81 : i < 81 := by
      rw [applyCells_length, hslen] at h1
      exact h1
    have hg := hget i hi81
    unfold boardGet at hg
    rw [List.getD_eq_getElem _ _ h1, List.getD_eq_getElem _ _ h2] at hg
    exact hg

/-- C1 (amended): on positions carrying no information outside the
format's range — an 81-cell board, every piece one of the eight kinds the
program writes, no promotion flag on King or Gold, no captured-King hand
counter — a successful `PackPosition256` round-trips exactly:
`UnpackPosition256` rebuilds the position and the canonical text agrees
at every move number.  (Unamended, the round-trip law fails: the format
has no promotion bit for King or Gold, see the counterexample.) -/
theorem c1_amended_roundtrip (pos : Position) (packed : Packed256)
    (hw : pack256Lossless pos = true)
    (h : packPosition256 pos = .ok packed) :
    ∃ pos2, unpackPosition256 packed = .ok pos2 ∧ ∀ n, toSFEN pos2 n = toSFEN pos n := by
  obtain ⟨hlen, hkinds, hBK, hWK⟩ := pack256Lossless_spec pos hw
  obtain ⟨bk, wk, bb, hb, hks, hbb, hhb, hbits, hlen256⟩ := packPosition256_parts pos packed h
  obtain ⟨hbk81, hwk81, hbkwk, ⟨pcb, hpcb, hpcbK, hpcbC⟩, ⟨pcw, hpcw, hpcwK, hpcwC⟩⟩ :=
    kingSquares_found pos bk wk hks
  have hpcbP : pcb.promoted = false := by
    rcases hkinds bk hbk81 pcb hpcb with hmem | ⟨_, hp⟩
    · rw [hpcbK] at hmem
      exact absurd hmem (by decide)
    · exact hp
  have hpcwP : pcw.promoted = false := by
    rcases hkinds wk hwk81 pcw hpcw with hmem | ⟨_, hp⟩
    · rw [hpcwK] at hmem
      exact absurd hmem (by decide)
    · exact hp
  have hpcbEq : pcb = ⟨strOf "K", Color.black, false⟩ := by
    obtain ⟨k0, c0, p0⟩ := pcb
    simp only [Piece.mk.injEq]
    exact ⟨hpcbK, hpcbC, hpcbP⟩
  have hpcwEq : pcw = ⟨strOf "K", Color.white, false⟩ := by
    obtain ⟨k0, c0, p0⟩ := pcw
    simp only [Piece.mk.injEq]
    exact ⟨hpcwK, hpcwC, hpcwP⟩
  have hcellb : boardGet pos.board bk = some ⟨strOf "K", Color.black, false⟩ := by
    rw [hpcb, hpcbEq]
  have hcellw : boardGet pos.board wk = some ⟨strOf "K", Color.white, false⟩ := by
    rw [hpcw, hpcwEq]
  have hnoK : ∀ sq ∈ (List.range 81).filter (fun s => s ≠ bk && s ≠ wk), ∀ pc,
      boardGet pos.board sq = some pc →
      pc.kind ∈ [strOf "P", strOf "L", strOf "N", strOf "S", strOf "B", strOf "R"] ∨
      (pc.kind = strOf "G" ∧ pc.promoted = false) := by
    intro sq hsq pc hpc
    have hmem := List.mem_filter.mp hsq
    have hsq81 : sq < 81 := List.mem_range.mp hmem.1
    have hne : sq ≠ bk ∧ sq ≠ wk := by simpa using hmem.2
    rcases hkinds sq hsq81 pc hpc with hm | ⟨hkg, hp⟩
    · exact Or.inl hm
    · rcases hkg with hK | hG
      · cases hcc : pc.color with
        | black =>
            exact absurd (kingScanGo_black_unique pos (List.range 81) none none bk wk hks
              sq hmem.1 pc hpc hK hcc) hne.1
        | white =>
            exact absurd (kingScanGo_white_unique pos (List.range 81) none none bk wk hks
              sq hmem.1 pc hpc hK hcc) hne.2
      · exact Or.inr ⟨hG, hp⟩
  have hturnEq : (if (if pos.turn = Color.white then true else false) = true
      then Color.white else Color.black) = pos.turn := by
    cases hpt : pos.turn <;> rfl
  have hhble : hb.length ≤ 256 := by
    have hl := hlen256
    rw [hbits] at hl
    simp only [List.length_cons, List.length_append, natBits_length] at hl
    omega
  have hlenE : (handEntries pos).length ≤ 256 :=
    le_trans (packHandsList_len_le (handEntries pos) hb (handEntries_kinds pos) hhb) hhble
  have hus := unpack_pack_squares pos ((List.range 81).filter (fun sq => sq ≠ bk && sq ≠ wk))
    (unpackStart pos.turn bk wk) bb hb hbb hnoK
  have hQb := applyCells_start_board pos bk wk pos.turn hlen hbk81 hwk81 hbkwk hcellb hcellw
  have hQt : (applyCells pos ((List.range 81).filter (fun sq => sq ≠ bk && sq ≠ wk))
      (unpackStart pos.turn bk wk)).turn = pos.turn :=
    (applyCells_frame pos _ (unpackStart pos.turn bk wk)).2.2
  have hQhb : (applyCells pos ((List.range 81).filter (fun sq => sq ≠ bk && sq ≠ wk))
      (unpackStart pos.turn bk wk)).handB = Hand.empty :=
    (applyCells_frame pos _ (unpackStart pos.turn bk wk)).1
  have hQhw : (applyCells pos ((List.range 81).filter (fun sq => sq ≠ bk && sq ≠ wk))
      (unpackStart pos.turn bk wk)).handW = Hand.empty :=
    (applyCells_frame pos _ (unpackStart pos.turn bk wk)).2.1
  refine ⟨pos, ?_, fun n => rfl⟩
  unfold unpackPosition256
  rw [hbits]
  dsimp only [readBit]
  rw [List.append_assoc, List.append_assoc]
  rw [readBits_natBits 7 bk (natBits 7 wk ++ (bb ++ hb)) (Nat.lt_trans hbk81 (by norm_num))]
  dsimp only
  rw [readBits_natBits 7 wk (bb ++ hb) (Nat.lt_trans hwk81 (by norm_num))]
  dsimp only
  rw [if_neg hbkwk]
  rw [hturnEq]
  rw [hus]
  dsimp only
  rw [readHands_entries (handEntries pos) 256 _ hb hhb (handEntries_kinds pos) hlenE]
  rw [applyEntries_hands_exact pos _ hQb hQt hQhb hQhw hBK hWK]

/-- C1 counterexample: the standard position with the Black King's
promotion flag set is accepted by `PackPosition256` (kings are stored as
bare indices, with no promotion bit), but the decoded position prints
without the `+K`, so the canonical text at move 1 differs from the
original's. -/
theorem c1_counterexample :
    (packPosition256 stdPromotedKingPos).isOk = true ∧
    roundTripSFEN stdPromotedKingPos 1 ≠ .ok (toSFEN stdPromotedKingPos 1) := by
  decide

theorem c1_amended_roundtrip_witness :
    ∃ pos2,
      unpackPosition256 ⟨false :: (List.replicate 7 false ++ (true :: List.replicate 6 false) ++
        List.replicate 79 false ++ List.replicate 162 false)⟩ = .ok pos2 ∧
      ∀ n, toSFEN pos2 n = toSFEN pawns54Pos n :=
  c1_amended_roundtrip pawns54Pos
    ⟨false :: (List.replicate 7 false ++ (true :: List.replicate 6 false) ++
      List.replicate 79 false ++ List.replicate 162 false)⟩
    (by decide) (by decide)

theorem countP_cons_true (p : Nat → Bool) (a : Nat) (l : List Nat) (h : p a = true) :
    (a :: l).countP p = l.countP p + 1 := by
  simp [List.countP_cons, h]

theorem countP_cons_false (p : Nat → Bool) (a : Nat) (l : List Nat) (h : p a = false) :
    (a :: l).countP p = l.countP p := by
  simp [List.countP_cons, h]

theorem countP_split (p : Nat → Bool) : ∀ (l : List Nat),
    l.countP p + l.countP (fun i => !p i) = l.length := by
  intro l
  induction l with
  | nil => rfl
  | cons a l ih =>
      cases hp : p a
      · rw [countP_cons_false p a l hp, countP_cons_true _ a l (by simp [hp]),
          List.length_cons]
        omega
      · rw [countP_cons_true p a l hp, countP_cons_false _ a l (by simp [hp]),
          List.length_cons]
        omega

theorem countP_range_unique (p : Nat → Bool) : ∀ (n k : Nat), k < n → p k = true →
    (∀ i, i < n → p i = true → i = k) → (List.range n).countP p = 1 := by
  intro n
  induction n with
  | zero => intro k hk _ _; exact absurd hk (by omega)
  | succ n ih =>
      intro k hk hp hu
      rw [List.range_succ, List.countP_append]
      by_cases hkn : k = n
      · subst hkn
        have h0 : (List.range k).countP p = 0 := by
          rw [List.countP_eq_zero]
          intro i hi
          have hik := List.mem_range.mp hi
          intro hpi
          have := hu i (by omega) hpi
          omega
        rw [h0, countP_cons_true p k [] hp]
        rfl
      · have hk2 : k < n := by omega
        rw [ih k hk2 hp (fun i hi hpi => hu i (by omega) hpi)]
        have hpn : p n = false := by
          cases hq : p n
          · rfl
          · exact absurd (hu n (by omega) hq).symm hkn
        rw [countP_cons_false p n [] hpn]
        rfl

theorem countP_range_pair (a b : Nat) (hab : a ≠ b) : ∀ (n : Nat), a < n → b < n →
    (List.range n).countP (fun i => i = a || i = b) = 2 := by
  intro n
  induction n with
  | zero => intro ha; exact absurd ha (by omega)
  | succ n ih =>
      intro ha hb
      rw [List.range_succ, List.countP_append]
      by_cases han : a = n
      · subst han
        have h1 : (List.range a).countP (fun i => i = a || i = b) = 1 := by
          apply countP_range_unique _ a b (by omega) (by simp)
          intro i hi hpi
          simp only [Bool.or_eq_true, decide_eq_true_eq] at hpi
          rcases hpi with h | h
          · omega
          · exact h
        rw [h1, countP_cons_true _ a [] (by simp)]
        rfl
      · by_cases hbn : b = n
        · subst hbn
          have h1 : (List.range b).countP (fun i => i = a || i = b) = 1 := by
            apply countP_range_unique _ b a (by omega) (by simp)
            intro i hi hpi
            simp only [Bool.or_eq_true, decide_eq_true_eq] at hpi
            rcases hpi with h | h
            · exact h
            · omega
          rw [h1, countP_cons_true _ b [] (by simp)]
          rfl
        · rw [ih (by omega) (by omega), countP_cons_false _ n [] (by
            simp only [Bool.or_eq_false_iff, decide_eq_false_iff_not]
            omega)]
          rfl

theorem sum_map_filter_split (f : Nat → Nat) (p : Nat → Bool) : ∀ (l : List Nat),
    ((l.filter p).map f).sum + ((l.filter (fun i => !p i)).map f).sum = (l.map f).sum := by
  intro l
  induction l with
  | nil => rfl
  | cons a l ih =>
      cases hp : p a <;>
        simp [List.filter_cons, hp] <;>
        omega

theorem boardWeight_eq_map (pos : Position) :
    boardWeight pos =
      ((List.range 81).map (fun i => cellWeight (boardGet pos.board i))).sum := rfl

theorem board_filter_facts (pos : Position) (bk wk : Nat)
    (hbk81 : bk < 81) (hwk81 : wk < 81) (hbkwk : bk ≠ wk)
    (hKb : cellWeight (boardGet pos.board bk) = 0)
    (hKw : cellWeight (boardGet pos.board wk) = 0) :
    ((List.range 81).filter (fun s => s ≠ bk && s ≠ wk)).length = 79 ∧
    (((List.range 81).filter (fun s => s ≠ bk && s ≠ wk)).map
      (fun i => cellWeight (boardGet pos.board i))).sum = boardWeight pos := by
  constructor
  · have hcsplit := countP_split (fun s => s ≠ bk && s ≠ wk) (List.range 81)
    simp only [] at hcsplit
    have hpair : (List.range 81).countP (fun i => i = bk || i = wk) = 2 :=
      countP_range_pair bk wk hbkwk 81 hbk81 hwk81
    have hcongr : (List.range 81).countP (fun i => !(i ≠ bk && i ≠ wk)) =
        (List.range 81).countP (fun i => i = bk || i = wk) := by
      apply List.countP_congr
      intro x _
      by_cases h1 : x = bk <;> by_cases h2 : x = wk <;> simp [h1, h2]
    rw [← List.countP_eq_length_filter]
    have hrange : (List.range 81).length = 81 := List.length_range 81
    omega
  · have hsplit := sum_map_filter_split (fun i => cellWeight (boardGet pos.board i))
      (fun s => s ≠ bk && s ≠ wk) (List.range 81)
    have hanti : (((List.range 81).filter (fun s => !(s ≠ bk && s ≠ wk))).map
        (fun i => cellWeight (boardGet pos.board i))).sum = 0 := by
      apply List.sum_eq_zero
      intro x hx
      obtain ⟨i, hiF, rfl⟩ := List.mem_map.mp hx
      have hii := List.mem_filter.mp hiF
      have hor : i = bk ∨ i = wk := by
        by_cases h1 : i = bk
        · exact Or.inl h1
        · by_cases h2 : i = wk
          · exact Or.inr h2
          · exfalso
            have hh := hii.2
            simp [h1, h2] at hh
      rcases hor with rfl | rfl
      · exact hKb
      · exact hKw
    rw [boardWeight_eq_map pos]
    simp only [] at hsplit hanti
    omega

theorem kingScanGo_total (pos : Position) : ∀ (L : List Nat) (b w : Option Nat),
    L.countP (isKingOf pos Color.black) + (if b.isSome then 1 else 0) = 1 →
    L.countP (isKingOf pos Color.white) + (if w.isSome then 1 else 0) = 1 →
    ∃ p, kingScanGo pos L b w = .ok p := by
  intro L
  induction L with
  | nil =>
      intro b w hB hW
      cases b with
      | none => simp at hB
      | some bi =>
          cases w with
          | none => simp at hW
          | some wi => exact ⟨(bi, wi), rfl⟩
  | cons i L ih =>
      intro b w hB hW
      unfold kingScanGo
      cases hcell : boardGet pos.board i with
      | none =>
          have hkb : isKingOf pos Color.black i = false := by simp [isKingOf, hcell]
          have hkw : isKingOf pos Color.white i = false := by simp [isKingOf, hcell]
          rw [countP_cons_false _ i L hkb] at hB
          rw [countP_cons_false _ i L hkw] at hW
          exact ih b w hB hW
      | some pc =>
          dsimp only
          by_cases hK : pc.kind = strOf "K"
          · rw [if_pos hK]
            by_cases hBc : pc.color = Color.black
            · rw [if_pos hBc]
              have hkb : isKingOf pos Color.black i = true := by
                simp [isKingOf, hcell, hK, hBc]
              have hkw : isKingOf pos Color.white i = false := by
                simp [isKingOf, hcell, hK, hBc]
              rw [countP_cons_true _ i L hkb] at hB
              rw [countP_cons_false _ i L hkw] at hW
              cases b with
              | some x => exfalso; simp only [Option.isSome_some, if_pos] at hB; omega
              | none =>
                  rw [if_neg (by simp)]
                  apply ih (some i) w ?_ hW
                  simp only [Option.isSome_some, if_pos]
                  simp only [Option.isSome_none] at hB
                  omega
            · rw [if_neg hBc]
              have hWc : pc.color = Color.white := by
                cases hcc : pc.color
                · exact absurd hcc hBc
                · rfl
              have hkb : isKingOf pos Color.black i = false := by
                simp [isKingOf, hcell, hK, hWc]
              have hkw : isKingOf pos Color.white i = true := by
                simp [isKingOf, hcell, hK, hWc]
              rw [countP_cons_false _ i L hkb] at hB
              rw [countP_cons_true _ i L hkw] at hW
              cases w with
              | some x => exfalso; simp only [Option.isSome_some, if_pos] at hW; omega
              | none =>
                  rw [if_neg (by simp)]
                  apply ih b (some i) hB ?_
                  simp only [Option.isSome_some, if_pos]
                  simp only [Option.isSome_none] at hW
                  omega
          · rw [if_neg hK]
            have hkb : isKingOf pos Color.black i = false := by
              simp [isKingOf, hcell, hK]
            have hkw : isKingOf pos Color.white i = false := by
              simp [isKingOf, hcell, hK]
            rw [countP_cons_false _ i L hkb] at hB
            rw [countP_cons_false _ i L hkw] at hW
            exact ih b w hB hW

theorem kingCount_of_scan (pos : Position) (bk wk : Nat)
    (hks : kingSquares pos = .ok (bk, wk)) :
    kingCount pos Color.black = 1 ∧ kingCount pos Color.white = 1 := by
  obtain ⟨hbk81, hwk81, hbkwk, ⟨pcb, hpcb, hpcbK, hpcbC⟩, ⟨pcw, hpcw, hpcwK, hpcwC⟩⟩ :=
    kingSquares_found pos bk wk hks
  constructor
  · unfold kingCount
    apply countP_range_unique (isKingOf pos Color.black) 81 bk hbk81
    · simp [isKingOf, hpcb, hpcbK, hpcbC]
    · intro i hi hp
      unfold isKingOf at hp
      cases hpc : boardGet pos.board i with
      | none => rw [hpc] at hp; exact absurd hp (by simp)
      | some pc =>
          rw [hpc] at hp
          dsimp only at hp
          simp only [Bool.and_eq_true, beq_iff_eq] at hp
          exact kingScanGo_black_unique pos (List.range 81) none none bk wk hks i
            (List.mem_range.mpr hi) pc hpc hp.1 hp.2
  · unfold kingCount
    apply countP_range_unique (isKingOf pos Color.white) 81 wk hwk81
    · simp [isKingOf, hpcw, hpcwK, hpcwC]
    · intro i hi hp
      unfold isKingOf at hp
      cases hpc : boardGet pos.board i with
      | none => rw [hpc] at hp; exact absurd hp (by simp)
      | some pc =>
          rw [hpc] at hp
          dsimp only at hp
          simp only [Bool.and_eq_true, beq_iff_eq] at hp
          exact kingScanGo_white_unique pos (List.range 81) none none bk wk hks i
            (List.mem_range.mpr hi) pc hpc hp.1 hp.2

theorem packSquares_ok_exists (pos : Position) : ∀ (L : List Nat),
    (∀ sq ∈ L, ∀ pc, boardGet pos.board sq = some pc →
      pc.kind ≠ strOf "K" ∧ pc.kind ∈ validKinds) →
    ∃ bs, packSquares pos L = .ok bs := by
  intro L
  induction L with
  | nil => exact fun _ => ⟨[], rfl⟩
  | cons sq L ih =>
      intro hk
      obtain ⟨rb, hrb⟩ := ih (fun s hs => hk s (List.mem_cons_of_mem _ hs))
      cases hc : packCell (boardGet pos.board sq) with
      | ok cb =>
          refine ⟨cb ++ rb, ?_⟩
          unfold packSquares
          rw [hc]
          dsimp only
          rw [hrb]
      | error e =>
          exfalso
          cases hcell : boardGet pos.board sq with
          | none => rw [hcell, packCell_none] at hc; exact absurd hc (by simp)
          | some pc =>
              obtain ⟨k0, c0, p0⟩ := pc
              obtain ⟨hKne, hmem⟩ := hk sq (List.mem_cons_self ..) ⟨k0, c0, p0⟩ hcell
              rw [hcell] at hc
              simp only [validKinds, List.mem_cons, List.not_mem_nil, or_false] at hmem
              rcases hmem with h | h | h | h | h | h | h | h
              · exact hKne h
              all_goals (subst h; first
                | rw [packCell_P] at hc
                | rw [packCell_L] at hc
                | rw [packCell_N] at hc
                | rw [packCell_S] at hc
                | rw [packCell_G] at hc
                | rw [packCell_B] at hc
                | rw [packCell_R] at hc)
              all_goals exact absurd hc (by simp)

theorem packSquares_ok_length (pos : Position) : ∀ (L : List Nat) (bs : List Bool),
    packSquares pos L = .ok bs →
    (∀ sq ∈ L, ∀ pc, boardGet pos.board sq = some pc → pc.kind ∈ validKinds) →
    bs.length = L.length + (L.map (fun sq => cellWeight (boardGet pos.board sq))).sum := by
  intro L
  induction L with
  | nil =>
      intro bs hp _
      injection hp with h
      subst h
      rfl
  | cons sq L ih =>
      intro bs hp hk
      unfold packSquares at hp
      cases hc : packCell (boardGet pos.board sq) with
      | error e => rw [hc] at hp; exact absurd hp (by simp)
      | ok cb =>
          rw [hc] at hp
          dsimp only at hp
          cases hr : packSquares pos L with
          | error e => rw [hr] at hp; exact absurd hp (by simp)
          | ok rb =>
              rw [hr] at hp
              dsimp only at hp
              injection hp with hbs
              subst hbs
              have hrlen := ih rb hr (fun s hs => hk s (List.mem_cons_of_mem _ hs))
              cases hcell : boardGet pos.board sq with
              | none =>
                  rw [hcell, packCell_none] at hc
                  injection hc with hcb
                  subst hcb
                  simp only [List.length_append, List.length_cons, List.length_nil,
                    List.map_cons, List.sum_cons, hcell, cellWeight, hrlen]
                  omega
              | some pc =>
                  obtain ⟨k0, c0, p0⟩ := pc
                  rw [hcell] at hc
                  have hKne : k0 ≠ strOf "K" := by
                    intro hkk
                    subst hkk
                    rw [show packCell (some ⟨strOf "K", c0, p0⟩) =
                      .error "unexpected king" from rfl] at hc
                    exact absurd hc (by simp)
                  have hmem := hk sq (List.mem_cons_self ..) ⟨k0, c0, p0⟩ hcell
                  simp only [validKinds, List.mem_cons, List.not_mem_nil, or_false] at hmem
                  rcases hmem with h | h | h | h | h | h | h | h
                  · exact absurd h hKne
                  all_goals (subst h; first
                    | rw [packCell_P] at hc
                    | rw [packCell_L] at hc
                    | rw [packCell_N] at hc
                    | rw [packCell_S] at hc
                    | rw [packCell_G] at hc
                    | rw [packCell_B] at hc
                    | rw [packCell_R] at hc)
                  all_goals (injection hc with hcb)
                  all_goals subst hcb
                  all_goals simp only [List.length_append, List.length_cons, List.length_nil,
                    List.map_cons, List.sum_cons, hcell, cellWeight, kindWeight_P, kindWeight_L,
                    kindWeight_N, kindWeight_S, kindWeight_G, kindWeight_B, kindWeight_R,
                    hrlen]
                  all_goals omega

theorem packHandsList_ok_exists : ∀ (E : List (Str × Color)),
    (∀ e ∈ E, e.1 ∈ handKindsOrder) → ∃ bs, packHandsList E = .ok bs := by
  intro E
  induction E with
  | nil => exact fun _ => ⟨[], rfl⟩
  | cons e E ih =>
      intro hm
      obtain ⟨k, c⟩ := e
      obtain ⟨rb, hrb⟩ := ih (fun x hx => hm x (List.mem_cons_of_mem _ hx))
      cases hc : packHandEntry k c with
      | ok eb =>
          refine ⟨eb ++ rb, ?_⟩
          unfold packHandsList
          rw [hc]
          dsimp only
          rw [hrb]
      | error e2 =>
          exfalso
          have hkm : (k, c).1 ∈ handKindsOrder := hm (k, c) (List.mem_cons_self ..)
          simp only [handKindsOrder, List.mem_cons, List.not_mem_nil, or_false] at hkm
          rcases hkm with rfl | rfl | rfl | rfl | rfl | rfl | rfl
          all_goals (first
            | rw [packHandEntry_P] at hc
            | rw [packHandEntry_L] at hc
            | rw [packHandEntry_N] at hc
            | rw [packHandEntry_S] at hc
            | rw [packHandEntry_G] at hc
            | rw [packHandEntry_B] at hc
            | rw [packHandEntry_R] at hc)
          all_goals exact absurd hc (by simp)

theorem packHandsList_ok_length : ∀ (E : List (Str × Color)) (bs : List Bool),
    packHandsList E = .ok bs → (∀ e ∈ E, e.1 ∈ handKindsOrder) →
    bs.length = (E.map (fun e => kindWeight e.1)).sum := by
  intro E
  induction E with
  | nil =>
      intro bs hp _
      injection hp with h
      subst h
      rfl
  | cons e E ih =>
      intro bs hp hm
      obtain ⟨k, c⟩ := e
      unfold packHandsList at hp
      cases hc : packHandEntry k c with
      | error e2 => rw [hc] at hp; exact absurd hp (by simp)
      | ok eb =>
          rw [hc] at hp
          dsimp only at hp
          cases hr : packHandsList E with
          | error e2 => rw [hr] at hp; exact absurd hp (by simp)
          | ok rb =>
              rw [hr] at hp
              dsimp only at hp
              injection hp with hbs
              subst hbs
              have hrlen := ih rb hr (fun x hx => hm x (List.mem_cons_of_mem _ hx))
              have hkm : (k, c).1 ∈ handKindsOrder := hm (k, c) (List.mem_cons_self ..)
              simp only [handKindsOrder, List.mem_cons, List.not_mem_nil, or_false] at hkm
              rcases hkm with rfl | rfl | rfl | rfl | rfl | rfl | rfl
              all_goals (first
                | rw [packHandEntry_P] at hc
                | rw [packHandEntry_L] at hc
                | rw [packHandEntry_N] at hc
                | rw [packHandEntry_S] at hc
                | rw [packHandEntry_G] at hc
                | rw [packHandEntry_B] at hc
                | rw [packHandEntry_R] at hc)
              all_goals (injection hc with heb)
              all_goals subst heb
              all_goals simp only [List.length_append, List.length_cons, List.length_nil,
                List.map_cons, List.sum_cons, kindWeight_P, kindWeight_L, kindWeight_N,
                kindWeight_S, kindWeight_G, kindWeight_B, kindWeight_R, hrlen]
              all_goals omega

theorem handEntries_weight (pos : Position) :
    ((handEntries pos).map (fun e => kindWeight e.1)).sum = handWeight pos := by
  simp [handEntries, handWeight, handKindsOrder, Position.hand, List.flatMap_cons,
    List.flatMap_nil, List.map_append, List.map_replicate, List.sum_append,
    List.sum_replicate, smul_eq_mul, kindWeight_P, kindWeight_L, kindWeight_N,
    kindWeight_S, kindWeight_G, kindWeight_B, kindWeight_R]
  omega

/-- C9 (amended): for a position whose board pieces all carry one of the
eight kinds the program writes, `PackPosition256` succeeds iff there is
exactly one King per side and the total bit weight of the material (P=3,
L/N/S/G=5, B/R=7 per unit, board or hand alike) is exactly 162 = 256−94.
The standard set weighs 162, but so do many other totals — e.g. 54 hand
Pawns — so success is NOT equivalent to standard material (see the
counterexample). -/
theorem c9_pack_characterization (pos : Position)
    (hv : boardKindsValid pos = true) :
    (packPosition256 pos).isOk = true ↔
      (kingCount pos Color.black = 1 ∧ kingCount pos Color.white = 1 ∧
        totalWeight pos = 162) := by
  have hv2 : ∀ i, i < 81 → ∀ pc, boardGet pos.board i = some pc → pc.kind ∈ validKinds := by
    simp only [boardKindsValid, List.all_eq_true] at hv
    intro i hi pc hpc
    have hh := hv i (List.mem_range.mpr hi)
    rw [hpc] at hh
    dsimp only at hh
    exact of_decide_eq_true hh
  constructor
  · intro hok
    cases hpk : packPosition256 pos with
    | error e => rw [hpk] at hok; exact absurd hok (by simp [Except.isOk, Except.toBool])
    | ok packed =>
        obtain ⟨bk, wk, bb, hb, hks, hbb, hhb, hbits, hlen256⟩ :=
          packPosition256_parts pos packed hpk
        obtain ⟨hbk81, hwk81, hbkwk, ⟨pcb, hpcb, hpcbK, hpcbC⟩, ⟨pcw, hpcw, hpcwK, hpcwC⟩⟩ :=
          kingSquares_found pos bk wk hks
        have hcounts := kingCount_of_scan pos bk wk hks
        refine ⟨hcounts.1, hcounts.2, ?_⟩
        have hKbW : cellWeight (boardGet pos.board bk) = 0 := by
          rw [hpcb]
          simp only [cellWeight]
          rw [hpcbK, kindWeight_K]
        have hKwW : cellWeight (boardGet pos.board wk) = 0 := by
          rw [hpcw]
          simp only [cellWeight]
          rw [hpcwK, kindWeight_K]
        obtain ⟨hflen, hfsum⟩ := board_filter_facts pos bk wk hbk81 hwk81 hbkwk hKbW hKwW
        have hbbl := packSquares_ok_length pos _ bb hbb
          (fun sq hsq pc hpc => hv2 sq (List.mem_range.mp (List.mem_filter.mp hsq).1) pc hpc)
        have hhbl := packHandsList_ok_length (handEntries pos) hb hhb (handEntries_kinds pos)
        have hwsum := handEntries_weight pos
        have hl := hlen256
        rw [hbits] at hl
        simp only [List.length_cons, List.length_append, natBits_length] at hl
        have htot : totalWeight pos = boardWeight pos + handWeight pos := rfl
        omega
  · rintro ⟨hKB, hKW, hTW⟩
    obtain ⟨p, hscan⟩ := kingScanGo_total pos (List.range 81) none none
      (by simpa [kingCount] using hKB) (by simpa [kingCount] using hKW)
    obtain ⟨bk, wk⟩ := p
    have hks : kingSquares pos = .ok (bk, wk) := hscan
    obtain ⟨hbk81, hwk81, hbkwk, ⟨pcb, hpcb, hpcbK, hpcbC⟩, ⟨pcw, hpcw, hpcwK, hpcwC⟩⟩ :=
      kingSquares_found pos bk wk hks
    have hkindsF : ∀ sq ∈ (List.range 81).filter (fun s => s ≠ bk && s ≠ wk), ∀ pc,
        boardGet pos.board sq = some pc → pc.kind ≠ strOf "K" ∧ pc.kind ∈ validKinds := by
      intro sq hsq pc hpc
      have hmem := List.mem_filter.mp hsq
      have hne : sq ≠ bk ∧ sq ≠ wk := by simpa using hmem.2
      refine ⟨?_, hv2 sq (List.mem_range.mp hmem.1) pc hpc⟩
      intro hK
      cases hcc : pc.color with
      | black =>
          exact hne.1 (kingScanGo_black_unique pos (List.range 81) none none bk wk hks
            sq hmem.1 pc hpc hK hcc)
      | white =>
          exact hne.2 (kingScanGo_white_unique pos (List.range 81) none none bk wk hks
            sq hmem.1 pc hpc hK hcc)
    obtain ⟨bs, hbs⟩ := packSquares_ok_exists pos _ hkindsF
    obtain ⟨hs, hhs⟩ := packHandsList_ok_exists (handEntries pos) (handEntries_kinds pos)
    have hKbW : cellWeight (boardGet pos.board bk) = 0 := by
      rw [hpcb]
      simp only [cellWeight]
      rw [hpcbK, kindWeight_K]
    have hKwW : cellWeight (boardGet pos.board wk) = 0 := by
      rw [hpcw]
      simp only [cellWeight]
      rw [hpcwK, kindWeight_K]
    obtain ⟨hflen, hfsum⟩ := board_filter_facts pos bk wk hbk81 hwk81 hbkwk hKbW hKwW
    have hbsl := packSquares_ok_length pos _ bs hbs
      (fun sq hsq pc hpc => hv2 sq (List.mem_range.mp (List.mem_filter.mp hsq).1) pc hpc)
    have hhsl := packHandsList_ok_length (handEntries pos) hs hhs (handEntries_kinds pos)
    have hwsum := handEntries_weight pos
    have htot : totalWeight pos = boardWeight pos + handWeight pos := rfl
    unfold packPosition256
    rw [hks]
    dsimp only
    rw [hbs]
    dsimp only
    rw [hhs]
    dsimp only
    rw [if_pos (by
      simp only [List.length_cons, List.length_append, natBits_length]
      omega)]
    rfl

/-- C9 counterexample: two bare Kings with 54 Pawns in Black's hand is
nowhere near the standard material set (54 Pawns instead of 18), yet its
weight is 54·3 = 162, so `PackPosition256` accepts it and emits exactly
256 bits. -/
theorem c9_counterexample :
    (packPosition256 pawns54Pos).isOk = true ∧
    pieceTotal pawns54Pos (strOf "P") = 54 ∧
    pieceTotal pawns54Pos (strOf "P") ≠ 18 := by
  decide

theorem c9_pack_characterization_witness :
    boardKindsValid stdPos = true ∧
    ((packPosition256 stdPos).isOk = true ↔
      (kingCount stdPos Color.black = 1 ∧ kingCount stdPos Color.white = 1 ∧
        totalWeight stdPos = 162)) :=
  ⟨by decide, c9_pack_characterization stdPos (by decide)⟩

end Cute

